import Mathlib

/-!
Verification of the `whisper-transcribe` core: the text-wrap engine and
Markdown fix-up pass (`internal/formatter/markdown.go`), the transcriber
stream scanner (`internal/transcriber`), and the pipeline orchestrator
(`internal/pipeline/pipeline.go`).

Strings are modelled as `List Char`; the Go sources only ever measure and
slice byte strings, and on ASCII data (all inputs relevant here) Go's
byte-oriented `len`/slicing coincides with the character count of this model.
-/

namespace WhisperTranscribe

/-- A Go string, modelled as a list of characters. -/
abbrev Str := List Char

/-- `unicode.IsSpace` restricted to the ASCII range, which is what
`strings.Fields`, `strings.TrimSpace` and friends test on ASCII input. -/
def isGoSpace (c : Char) : Bool :=
  c = ' ' || c = '\t' || c = '\n' || c = Char.ofNat 11 || c = Char.ofNat 12 || c = '\r'

/-- Worker for `fields`, structurally recursive on a fuel bound so that the
kernel can evaluate it; any fuel ≥ the input length gives the same answer. -/
def fieldsF : Nat → Str → List Str
  | 0, _ => []
  | _, [] => []
  | n + 1, c :: r =>
    if isGoSpace c then fieldsF n r
    else (c :: r.takeWhile (fun d => !isGoSpace d)) :: fieldsF n (r.dropWhile (fun d => !isGoSpace d))

/-- Go `strings.Fields`: the whitespace-delimited words of a string. -/
def fields (s : Str) : List Str := fieldsF s.length s

/-- Go `strings.TrimSpace`. -/
def trimSpace (s : Str) : Str :=
  ((s.dropWhile isGoSpace).reverse.dropWhile isGoSpace).reverse

/-- Go `strings.TrimRight(s, " \t")`. -/
def trimRightST (s : Str) : Str :=
  (s.reverse.dropWhile (fun c => c = ' ' || c = '\t')).reverse

/-- Go `strings.TrimRight(s, "\n")`. -/
def trimRightNl (s : Str) : Str :=
  (s.reverse.dropWhile (fun c => c = '\n')).reverse

/-- Go `strings.Split(s, sep)` for a one-character separator. -/
def splitCh (sep : Char) : Str → List Str
  | [] => [[]]
  | c :: r =>
    if c = sep then [] :: splitCh sep r
    else
      match splitCh sep r with
      | [] => [[c]]
      | l :: ls => (c :: l) :: ls

/-- Go `strings.Join(lines, "\n")` (specialised to one-char separator). -/
def joinCh (sep : Char) : List Str → Str
  | [] => []
  | [l] => l
  | l :: l2 :: ls => l ++ sep :: joinCh sep (l2 :: ls)

/-- Go `strings.HasSuffix(s, [c])` for a single character. -/
def endsWith (s : Str) (c : Char) : Bool :=
  match s.getLast? with
  | some d => d = c
  | none => false

/-! ## Text-wrap engine (`internal/formatter/markdown.go`) -/
/-- `maxLineLength` from `markdown.go`. -/
def maxLineLength : Nat := 80

/-- The shared word-folding loop of `wrapText` and `wrapTextWithPrefix`
(lines 308–326 / 342–360 of `markdown.go`): append each word either after a
space on the current line or after a newline when the budget would overflow. -/
def wtGo (maxLen : Nat) : List Str → Nat → Str → Str
  | [], _, acc => acc
  | w :: ws, lineLen, acc =>
    if maxLen < lineLen + 1 + w.length then
      wtGo maxLen ws w.length (acc ++ '\n' :: w)
    else
      wtGo maxLen ws (lineLen + 1 + w.length) (acc ++ ' ' :: w)

/-- `wrapText` (markdown.go:299–329): word wrap, no hard splitting. -/
def wrapText (text : Str) (maxLen : Nat) : Str :=
  if text.length ≤ maxLen then text
  else
    match fields text with
    | [] => []
    | w :: ws => wtGo maxLen ws w.length w

/-- `wrapTextWithPrefix` (markdown.go:332–363): like `wrapText` but the first
line starts with `pfx` and the prefix length counts against the budget. -/
def wrapTextWithPrefix (pfx : Str) (text : Str) (maxLen : Nat) : Str :=
  if pfx.length + text.length ≤ maxLen then pfx ++ text
  else
    match fields text with
    | [] => pfx
    | w :: ws => wtGo maxLen ws (pfx.length + w.length) (pfx ++ w)

/-- The word-folding loop of `wrapBlockquote` (markdown.go:379–397): the
continuation separator is `"\n> "`. -/
def wbGo (maxLen : Nat) : List Str → Nat → Str → Str
  | [], _, acc => acc
  | w :: ws, lineLen, acc =>
    if maxLen < lineLen + 1 + w.length then
      wbGo maxLen ws w.length (acc ++ '\n' :: '>' :: ' ' :: w)
    else
      wbGo maxLen ws (lineLen + 1 + w.length) (acc ++ ' ' :: w)

/-- `wrapBlockquote` (markdown.go:366–400): every output line carries a
`"> "` prefix whose two characters are subtracted from the budget. -/
def wrapBlockquote (text : Str) (maxLen : Nat) : Str :=
  let effectiveLen := maxLen - 2
  if text.length ≤ effectiveLen then '>' :: ' ' :: text
  else
    match fields text with
    | [] => ['>', ' ']
    | w :: ws => wbGo effectiveLen ws w.length ('>' :: ' ' :: w)

/-! ## Hard wrapping and the fix-up pass (`FixCommonIssues`) -/
/-- Does the line carry the blockquote marker `"> "`? (markdown.go:225) -/
def bqMarked : Str → Bool
  | '>' :: ' ' :: _ => true
  | _ => false

/-- Does the line start a heading? (markdown.go:232) -/
def startsHash : Str → Bool
  | '#' :: _ => true
  | _ => false

/-- The inner loop of `forceWrapLine` that breaks a word longer than the
budget into `maxLen`-sized chunks plus a remainder (markdown.go:258–264).
Go loops `for len(word) > maxLen`; the `0 < m` guard only rules out the
`maxLen ≤ 0` inputs on which the Go loop would not terminate (never reached
from `FixCommonIssues`, which always passes 80). -/
def hardSplitF : Nat → Nat → Str → List Str × Str
  | 0, _, w => ([], w)
  | fuel + 1, m, w =>
    if 0 < m ∧ m < w.length then
      (w.take m :: (hardSplitF fuel m (w.drop m)).1, (hardSplitF fuel m (w.drop m)).2)
    else ([], w)

def hardSplit (m : Nat) (w : Str) : List Str × Str := hardSplitF w.length m w

/-- The word loop of `forceWrapLine` (markdown.go:246–295) for all words
after the first. State: current line `cur` (prefix included), its content
length `ll` (prefix excluded), and the lines already emitted. -/
def fwGo (pfx : Str) (m : Nat) : List Str → Str → Nat → List Str → List Str
  | [], cur, _, acc => if pfx.length < cur.length then acc ++ [cur] else acc
  | w :: ws, cur, ll, acc =>
    if m < w.length then
      if 0 < (hardSplit m w).2.length then
        fwGo pfx m ws (pfx ++ (hardSplit m w).2) (hardSplit m w).2.length
          ((if 0 < ll then acc ++ [cur] else acc) ++ (hardSplit m w).1.map (fun c => pfx ++ c))
      else
        fwGo pfx m ws pfx 0
          ((if 0 < ll then acc ++ [cur] else acc) ++ (hardSplit m w).1.map (fun c => pfx ++ c))
    else if m < ll + 1 + w.length then
      fwGo pfx m ws (pfx ++ w) w.length (acc ++ [cur])
    else
      fwGo pfx m ws (cur ++ ' ' :: w) (ll + 1 + w.length) acc

/-- Start the `forceWrapLine` word loop on the word list of the line's text:
the first word is placed directly (Go's `i == 0` branch), or hard-split when
it alone exceeds the budget. -/
def fwStart (pfx : Str) (m : Nat) : List Str → List Str
  | [] => []
  | w :: ws =>
    if m < w.length then
      if 0 < (hardSplit m w).2.length then
        fwGo pfx m ws (pfx ++ (hardSplit m w).2) (hardSplit m w).2.length
          ((hardSplit m w).1.map (fun c => pfx ++ c))
      else fwGo pfx m ws pfx 0 ((hardSplit m w).1.map (fun c => pfx ++ c))
    else fwGo pfx m ws (pfx ++ w) w.length []

/-- `forceWrapLine` (markdown.go:221–296): wrap one over-long line, keeping a
`"> "` prefix on every produced line and hard-splitting over-long words.
Headings and all-whitespace lines are returned unchanged. -/
def forceWrapLine (line : Str) (maxLen : Nat) : List Str :=
  if startsHash line then [line]
  else if bqMarked line then
    if fields (line.drop 2) = [] then [line]
    else fwStart ['>', ' '] (maxLen - 2) (fields (line.drop 2))
  else
    if fields line = [] then [line]
    else fwStart [] maxLen (fields line)

/-- Do the first three characters all equal `q`? -/
def startsTriple (q : Char) : Str → Bool
  | a :: b :: c :: _ => a = q && b = q && c = q
  | _ => false

/-- Does `s` contain three consecutive copies of `q`? Instantiated at `'\n'`
this is Go's `strings.Contains(content, "\n\n\n")` (markdown.go:211). -/
def hasTriple (q : Char) : Str → Bool
  | [] => false
  | a :: rest => startsTriple q (a :: rest) || hasTriple q rest

/-- One Go `strings.ReplaceAll(content, "\n\n\n", "\n\n")`: replace
non-overlapping occurrences left to right (markdown.go:212). -/
def collapse3F : Nat → Str → Str
  | 0, s => s
  | _, [] => []
  | fuel + 1, a :: rest =>
    if a = '\n' ∧ rest.take 2 = ['\n', '\n'] then '\n' :: '\n' :: collapse3F fuel (rest.drop 2)
    else a :: collapse3F fuel rest

def collapse3 (s : Str) : Str := collapse3F s.length s

def collapseLoopF : Nat → Str → Str
  | 0, s => s
  | fuel + 1, s => if hasTriple '\n' s = true then collapseLoopF fuel (collapse3 s) else s

/-- Go's `for strings.Contains(content, "\n\n\n") { … ReplaceAll … }` loop
(markdown.go:211–213): each replacement pass strictly shrinks the string, so
`s.length` passes always reach the fixpoint. -/
def collapseLoop (s : Str) : Str := collapseLoopF s.length s

/-- The per-line pass of `FixCommonIssues` (markdown.go:187–207): trim
trailing spaces/tabs, track frontmatter `---` fences, keep short or
frontmatter lines, force-wrap the rest. -/
def fciLines : List Str → Bool → List Str
  | [], _ => []
  | l :: ls, inFM =>
    let t := trimRightST l
    if t = ['-', '-', '-'] then t :: fciLines ls (!inFM)
    else if inFM || t.length ≤ maxLineLength then t :: fciLines ls inFM
    else forceWrapLine t maxLineLength ++ fciLines ls inFM

/-- `FixCommonIssues` (markdown.go:183–218). -/
def fixCommonIssues (content : Str) : Str :=
  let c := joinCh '\n' (fciLines (splitCh '\n' content) false)
  trimRightNl (collapseLoop c) ++ ['\n']

/-! ## Markdown assembly pieces (`GenerateMarkdown`) -/
/-- The upload-date rewrite of `GenerateMarkdown` (markdown.go:97–100): a
string of length exactly 8 becomes `xxxx-xx-xx`; anything else is passed
through unchanged. -/
def normalizeUploadDate (u : Str) : Str :=
  if u.length = 8 then u.take 4 ++ '-' :: (u.drop 4).take 2 ++ '-' :: (u.drop 6).take 2
  else u

/-- Does the segment text end in `.`, `?` or `!`? (markdown.go:74–76). -/
def endsPunct (s : Str) : Bool :=
  endsWith s '.' || endsWith s '?' || endsWith s '!'

/-- The prose-mode loop of `GenerateMarkdown` (markdown.go:69–94): `i` is the
0-based index of the next segment, `para` the paragraph builder, `content`
the output builder. A paragraph is flushed when the segment text ends in
terminal punctuation or when `(i+1) % 5 == 0`. -/
def proseGo : List Str → Nat → Str → Str → Str
  | [], _, para, content =>
    if 0 < para.length then
      if trimSpace para ≠ [] then content ++ wrapText (trimSpace para) maxLineLength ++ ['\n']
      else content
    else content
  | s :: rest, i, para, content =>
    if endsPunct s || (i + 1) % 5 = 0 then
      proseGo rest (i + 1) []
        (if trimSpace (para ++ s ++ [' ']) ≠ [] then
          content ++ wrapText (trimSpace (para ++ s ++ [' '])) maxLineLength ++ ['\n', '\n']
        else content)
    else proseGo rest (i + 1) (para ++ s ++ [' ']) content

/-- Prose-mode body built by `GenerateMarkdown` from the segment texts
(timestamps disabled). -/
def generateProseContent (segTexts : List Str) : Str :=
  proseGo segTexts 0 [] []

/-! ## Transcriber stream scanner (`internal/transcriber`, src/unnamed/part_001) -/
/-- A transcribed segment (part_001:17–22). -/
structure Segment where
  start : Str
  stop : Str
  text : Str
  timestamp : Str
deriving DecidableEq

/-- A streaming transcription chunk (part_001:25–29); the progress fraction
`float64(lineCount) / 100.0` is modelled as a rational. -/
structure Chunk where
  text : Str
  timestamp : Str
  progress : ℚ
deriving DecidableEq

/-- Parse `\d{2}:\d{2}:\d{2}[.,]\d{3}` at the head of the input, returning
the matched text and the rest. -/
def parseTs : Str → Option (Str × Str)
  | a :: b :: ':' :: c :: d :: ':' :: e :: f :: p :: g :: h :: i :: rest =>
    if a.isDigit && b.isDigit && c.isDigit && d.isDigit && e.isDigit && f.isDigit &&
       (p = '.' || p = ',') && g.isDigit && h.isDigit && i.isDigit then
      some ([a, b, ':', c, d, ':', e, f, p, g, h, i], rest)
    else none
  | _ => none

/-- Match `timestampRe` (part_001:71) starting at the head of the input:
`\[ts\s*-->\s*ts\]\s*(.*)`, yielding the two timestamps and the trailing
capture. -/
def matchTsAt (s : Str) : Option (Str × Str × Str) :=
  match s with
  | '[' :: r =>
    match parseTs r with
    | none => none
    | some (t1, r1) =>
      match r1.dropWhile isGoSpace with
      | '-' :: '-' :: '>' :: r3 =>
        match parseTs (r3.dropWhile isGoSpace) with
        | none => none
        | some (t2, r5) =>
          match r5 with
          | ']' :: r6 => some (t1, t2, r6.dropWhile isGoSpace)
          | _ => none
      | _ => none
  | _ => none

/-- `timestampRe.FindStringSubmatch`: the leftmost match in the line. -/
def findTsMatch : Str → Option (Str × Str × Str)
  | [] => none
  | c :: r =>
    match matchTsAt (c :: r) with
    | some x => some x
    | none => findTsMatch r

/-- `normalizeTimestamp` (part_001:177–179): `,` → `.`. -/
def normalizeTimestamp (ts : Str) : Str :=
  ts.map fun c => if c = ',' then '.' else c

/-- `formatTimestamp` (part_001:181–195): `hh:mm:ss.mmm` becomes `[mm:ss]`
when the hour field is `00`, else `[hh:mm:ss]`. -/
def formatTimestamp (ts : Str) : Str :=
  let ts' := normalizeTimestamp ts
  match splitCh ':' ts' with
  | [h, m, sec] =>
    let s := (splitCh '.' sec).headD []
    if h = ['0', '0'] then '[' :: m ++ ':' :: s ++ [']']
    else '[' :: h ++ ':' :: m ++ ':' :: s ++ [']']
  | _ => '[' :: ts' ++ [']']

/-- The stdout scanning loop of `Transcribe` (part_001:83–110): `n` is the
number of lines scanned so far; every line bumps it, and each regex match
with nonempty trimmed text appends a segment and fires the chunk callback
with progress `lineCount/100`. -/
def scanGo : List Str → Nat → List Segment × List Chunk
  | [], _ => ([], [])
  | l :: ls, n =>
    match findTsMatch l with
    | some (t1, t2, cap) =>
      if trimSpace cap ≠ [] then
        (⟨normalizeTimestamp t1, normalizeTimestamp t2, trimSpace cap, formatTimestamp t1⟩ ::
            (scanGo ls (n + 1)).1,
         ⟨trimSpace cap, formatTimestamp t1, ((n + 1 : Nat) : ℚ) / 100⟩ :: (scanGo ls (n + 1)).2)
      else scanGo ls (n + 1)
    | none => scanGo ls (n + 1)

/-- Segments captured from a whisper stdout stream. -/
def scanSegments (lines : List Str) : List Segment := (scanGo lines 0).1

/-- Chunk callbacks fired while scanning a whisper stdout stream. -/
def scanChunks (lines : List Str) : List Chunk := (scanGo lines 0).2

/-- `CountWords` (part_001:197–205): whitespace-delimited tokens summed over
all segment texts. -/
def countWords (segments : List Segment) : Nat :=
  (segments.map fun seg => (fields seg.text).length).sum

/-- Observable behaviour of the external collaborators during one run: what
the metadata fetcher, audio extractor, whisper process, formatter write and
lint validator do. The pipeline's event stream is a function of this. -/
structure Behavior where
  metaTitle : Str
  metaChannel : Str
  metaDuration : Str
  metaErr : Option Str
  dlProgress : List ℚ
  dlErr : Option Str
  whisperBinFound : Bool
  whisperModelFound : Bool
  stdoutLines : List Str
  waitErr : Option Str
  fmtPath : Str
  fmtErr : Option Str
  lintErr : Bool

/-- Result of `Transcribe` (part_001:35–120): chunks fired plus either the
segment list or an error. A `cmd.Wait` failure is forgiven when at least one
segment was captured (part_001:112–117). -/
def transcribeRun (b : Behavior) : List Chunk × Option (List Segment) :=
  if !b.whisperBinFound then ([], none)
  else if !b.whisperModelFound then ([], none)
  else
    match b.waitErr with
    | some _ =>
      if scanSegments b.stdoutLines ≠ [] then
        (scanChunks b.stdoutLines, some (scanSegments b.stdoutLines))
      else (scanChunks b.stdoutLines, none)
    | none => (scanChunks b.stdoutLines, some (scanSegments b.stdoutLines))

/-- `Stats` (pipeline.go:60–64). -/
structure Stats where
  duration : Str
  wordCount : Nat
  model : Str
deriving DecidableEq

/-- Pipeline events (pipeline.go:12–57); progress fractions as rationals.
The Go `error` payload of `ErrorEvent` is abstracted away (no claim inspects
it); `failure step` records which stage failed. -/
inductive Event where
  | metadata (title channel duration : Str)
  | progress (step : Str) (fraction : ℚ) (message : Str)
  | transcript (text timestamp : Str)
  | completed (outputPath : Str) (stats : Stats)
  | failure (step : Str)
deriving DecidableEq

/-- Is the event a terminal (`CompletedEvent`/`ErrorEvent`) one? -/
def Event.isTerminal : Event → Bool
  | .completed _ _ => true
  | .failure _ => true
  | _ => false

/-- The event stream emitted by `Pipeline.Run` (pipeline.go:86–160) for a
given model name and collaborator behaviour. -/
def runEvents (model : Str) (b : Behavior) : List Event :=
  Event.progress ("metadata".data) 0 ("Fetching video info...".data) ::
  match b.metaErr with
  | some _ => [Event.failure ("metadata".data)]
  | none =>
    Event.metadata b.metaTitle b.metaChannel b.metaDuration ::
    Event.progress ("metadata".data) 1 ("Done".data) ::
    Event.progress ("download".data) 0 ("Starting download...".data) ::
    (b.dlProgress.map fun p => Event.progress ("download".data) p ("Downloading...".data)) ++
    match b.dlErr with
    | some _ => [Event.failure ("download".data)]
    | none =>
      Event.progress ("download".data) 1 ("Done".data) ::
      Event.progress ("transcribe".data) 0 ("Starting transcription...".data) ::
      (((transcribeRun b).1.flatMap fun c =>
         [Event.transcript c.text c.timestamp,
          Event.progress ("transcribe".data) c.progress ("Transcribing...".data)]) ++
       match (transcribeRun b).2 with
       | none => [Event.failure ("transcribe".data)]
       | some segs =>
         Event.progress ("transcribe".data) 1 ("Done".data) ::
         Event.progress ("format".data) 0 ("Generating markdown...".data) ::
         match b.fmtErr with
         | some _ => [Event.failure ("format".data)]
         | none =>
           [Event.progress ("format".data) 1 ("Done".data),
            Event.progress ("validate".data) 0 ("Checking markdown...".data),
            Event.progress ("validate".data) 1
              (if b.lintErr then "Warnings found".data else "Passed".data),
            Event.completed b.fmtPath ⟨b.metaDuration, countWords segs, model⟩])

/-! ## Word predicate and blockquote unquoting -/
/-- A word as produced by `strings.Fields`: nonempty and whitespace-free. -/
def goodWord (w : Str) : Prop := w ≠ [] ∧ ∀ x ∈ w, isGoSpace x = false

/-- Remove the blockquote markers `"> "` that follow each newline. -/
def unqGo : Str → Str
  | [] => []
  | c :: r =>
    if c = '\n' ∧ r.take 2 = ['>', ' '] then '\n' :: unqGo (r.drop 2)
    else c :: unqGo r
termination_by s => s.length
decreasing_by
  all_goals simp only [List.length_cons, List.length_drop]
  all_goals omega

/-- Remove the blockquote markers from a `wrapBlockquote` output: the leading
`"> "` and every `"> "` following a newline. -/
def unquoteBlock (s : Str) : Str :=
  unqGo (if s.take 2 = ['>', ' '] then s.drop 2 else s)

/-! ## Declarative description of the prose-mode paragraphing -/
/-- The paragraph-builder content for an accumulated group of segment texts:
each text followed by one space (markdown.go:71–72). -/
def joinTexts (g : List Str) : Str := g.flatMap fun s => s ++ [' ']

/-- The flushed form of a paragraph group: builder content, space-trimmed. -/
def renderPara (g : List Str) : Str := trimSpace (joinTexts g)

/-- Split the segment list into flushed paragraph groups and a trailing
partial group: a group ends at a segment whose text ends in `.`/`?`/`!` or
whose 1-based position in the whole sequence is a multiple of 5. -/
def paraGroups : List Str → Nat → List Str → List (List Str) × List Str
  | [], _, acc => ([], acc)
  | s :: rest, i, acc =>
    if endsPunct s || (i + 1) % 5 = 0 then
      ((acc ++ [s]) :: (paraGroups rest (i + 1) []).1, (paraGroups rest (i + 1) []).2)
    else paraGroups rest (i + 1) (acc ++ [s])

/-- Rendering of one flushed paragraph group (wrapped, blank line after). -/
def renderGroup (g : List Str) : Str :=
  if renderPara g ≠ [] then wrapText (renderPara g) maxLineLength ++ ['\n', '\n'] else []

/-- Rendering of the trailing partial paragraph, if any. -/
def renderTrail (g : List Str) : Str :=
  if g ≠ [] then
    if renderPara g ≠ [] then wrapText (renderPara g) maxLineLength ++ ['\n'] else []
  else []

/-- Prose-mode body, described declaratively by paragraph groups. -/
def renderProse (segs : List Str) : Str :=
  (paraGroups segs 0 []).1.flatMap renderGroup ++ renderTrail (paraGroups segs 0 []).2

/-- Modelled from the spec claim's wording — flush "when 5 segments have
accumulated since the last flush": `k` counts segments accumulated since the
last flush; otherwise identical to the code's prose loop.  Used only to
exhibit where the claim and the code diverge. -/
def claimProseGo : List Str → Nat → Str → Str → Str
  | [], _, para, content =>
    if 0 < para.length then
      if trimSpace para ≠ [] then
        content ++ wrapText (trimSpace para) maxLineLength ++ ['\n']
      else content
    else content
  | s :: rest, k, para, content =>
    if endsPunct s || k + 1 = 5 then
      claimProseGo rest 0 []
        (if trimSpace (para ++ s ++ [' ']) ≠ [] then
          content ++ wrapText (trimSpace (para ++ s ++ [' '])) maxLineLength ++ ['\n', '\n']
        else content)
    else claimProseGo rest (k + 1) (para ++ s ++ [' ']) content

/-- Prose content as the claim describes it. -/
def claimProseContent (segs : List Str) : Str := claimProseGo segs 0 [] []

/-! ## Concrete pipeline behaviours used by the claim analyses -/
/-- A run in which the whisper process produces two segments and then exits
with an error, everything else succeeding (scenario E). -/
def partialRunBehavior : Behavior :=
  { metaTitle := "T".data, metaChannel := "C".data, metaDuration := "1:00".data,
    metaErr := none, dlProgress := [], dlErr := none,
    whisperBinFound := true, whisperModelFound := true,
    stdoutLines := ["[00:00:00.000 --> 00:00:01.000] Hi".data,
                    "[00:00:01.000 --> 00:00:02.000] There".data],
    waitErr := some "boom".data, fmtPath := "out.md".data, fmtErr := none,
    lintErr := false }

/-- A run whose whisper process prints 100 junk lines before the first
segment line: the forwarded progress is `101/100 > 1`. -/
def overflowBehavior : Behavior :=
  { metaTitle := "T".data, metaChannel := "C".data, metaDuration := "1:00".data,
    metaErr := none, dlProgress := [], dlErr := none,
    whisperBinFound := true, whisperModelFound := true,
    stdoutLines := List.replicate 100 "x".data ++
      ["[00:00:01.000 --> 00:00:05.000] Hello".data],
    waitErr := none, fmtPath := "out.md".data, fmtErr := none, lintErr := false }

/-! ## A document on which the fix-up pass is not idempotent -/
/-- An over-long line containing an interior `" --- "` that hard-wrapping will
place at the start of an output line, creating a new frontmatter fence. -/
def c5LineA : Str := List.replicate 80 'a' ++ " --- ".data ++ List.replicate 80 'b'

/-- An over-long line sitting after the frontmatter fences. -/
def c5LineB : Str := List.replicate 60 'c' ++ [' '] ++ List.replicate 60 'd'

/-- A document whose first `FixCommonIssues` pass emits a new `---` line
before the real opening fence, shifting the frontmatter state of the second
pass. -/
def c5Doc : Str := c5LineA ++ "\n---\n".data ++ c5LineB ++ "\n---".data

theorem dropWhile_length_le (p : Char → Bool) : ∀ l : Str, (l.dropWhile p).length ≤ l.length
  | [] => Nat.le_refl _
  | c :: l => by
    by_cases h : p c
    · simp only [List.dropWhile, h]
      exact Nat.le_succ_of_le (dropWhile_length_le p l)
    · simp only [List.dropWhile, h, Bool.false_eq_true, if_false]
      exact Nat.le_refl _

theorem fieldsF_congr : ∀ (n m : Nat) (s : Str), s.length ≤ n → s.length ≤ m →
    fieldsF n s = fieldsF m s
  | n, m, [], _, _ => by cases n <;> cases m <;> rfl
  | 0, _, c :: r, hn, _ => by simp at hn
  | _ + 1, 0, c :: r, _, hm => by simp at hm
  | n + 1, m + 1, c :: r, hn, hm => by
    rw [fieldsF, fieldsF]
    simp only [List.length_cons, Nat.add_le_add_iff_right] at hn hm
    split
    · exact fieldsF_congr n m r hn hm
    · rw [fieldsF_congr n m (r.dropWhile fun d => !isGoSpace d)
        (Nat.le_trans (dropWhile_length_le _ r) hn) (Nat.le_trans (dropWhile_length_le _ r) hm)]

theorem fieldsF_eq (n : Nat) (s : Str) (h : s.length ≤ n) : fieldsF n s = fields s :=
  fieldsF_congr n s.length s h (Nat.le_refl _)

theorem hardSplitF_congr : ∀ (n n' m : Nat) (w : Str), w.length ≤ n → w.length ≤ n' →
    hardSplitF n m w = hardSplitF n' m w
  | 0, 0, _, _, _, _ => rfl
  | 0, _ + 1, m, w, hn, _ => by
    rw [hardSplitF, hardSplitF, if_neg]
    intro hc
    omega
  | _ + 1, 0, m, w, _, hn => by
    rw [hardSplitF, hardSplitF, if_neg]
    intro hc
    omega
  | n + 1, n' + 1, m, w, hn, hn' => by
    rw [hardSplitF, hardSplitF]
    split
    · next hc =>
      have hd : (w.drop m).length ≤ n := by simp only [List.length_drop]; omega
      have hd' : (w.drop m).length ≤ n' := by simp only [List.length_drop]; omega
      rw [hardSplitF_congr n n' m (w.drop m) hd hd']
    · rfl

theorem hardSplit_eq (m : Nat) (w : Str) :
    hardSplit m w =
      if 0 < m ∧ m < w.length then
        (w.take m :: (hardSplit m (w.drop m)).1, (hardSplit m (w.drop m)).2)
      else ([], w) := by
  by_cases hc : 0 < m ∧ m < w.length
  · rw [if_pos hc]
    obtain ⟨n, hn⟩ : ∃ n, w.length = n + 1 := ⟨w.length - 1, by omega⟩
    show hardSplitF w.length m w = _
    rw [hn, hardSplitF, if_pos hc,
      hardSplitF_congr n (w.drop m).length m (w.drop m)
        (by simp only [List.length_drop]; omega) (Nat.le_refl _)]
    rfl
  · rw [if_neg hc]
    show hardSplitF w.length m w = ([], w)
    rcases hl : w.length with _ | n
    · rfl
    · rw [hardSplitF, if_neg hc]

theorem hasTriple_nil (q : Char) : hasTriple q [] = false := by rw [hasTriple]

theorem collapse3F_congr : ∀ (n m : Nat) (s : Str), s.length ≤ n → s.length ≤ m →
    collapse3F n s = collapse3F m s
  | n, m, [], _, _ => by cases n <;> cases m <;> rfl
  | 0, _, c :: r, hn, _ => by simp at hn
  | _ + 1, 0, c :: r, _, hm => by simp at hm
  | n + 1, m + 1, c :: r, hn, hm => by
    rw [collapse3F, collapse3F]
    simp only [List.length_cons, Nat.add_le_add_iff_right] at hn hm
    split
    · rw [collapse3F_congr n m (r.drop 2)
        (Nat.le_trans (by simp only [List.length_drop]; omega) hn)
        (Nat.le_trans (by simp only [List.length_drop]; omega) hm)]
    · rw [collapse3F_congr n m r hn hm]

theorem collapse3F_eq (n : Nat) (s : Str) (h : s.length ≤ n) : collapse3F n s = collapse3 s :=
  collapse3F_congr n s.length s h (Nat.le_refl _)

theorem collapse3_nil : collapse3 [] = [] := rfl

theorem collapse3_cons (a : Char) (r : Str) :
    collapse3 (a :: r) =
      if a = '\n' ∧ r.take 2 = ['\n', '\n'] then '\n' :: '\n' :: collapse3 (r.drop 2)
      else a :: collapse3 r := by
  show collapse3F (r.length + 1) (a :: r) = _
  rw [collapse3F]
  split
  · rw [collapse3F_eq r.length (r.drop 2) (by simp only [List.length_drop]; omega)]
  · rw [collapse3F_eq r.length r (Nat.le_refl _)]

theorem collapse3_triple (r : Str) :
    collapse3 ('\n' :: '\n' :: '\n' :: r) = '\n' :: '\n' :: collapse3 r := by
  rw [collapse3_cons]
  simp

theorem collapse3_cons_of_ne (a : Char) (r : Str)
    (h : ¬(a = '\n' ∧ r.take 2 = ['\n', '\n'])) : collapse3 (a :: r) = a :: collapse3 r := by
  rw [collapse3_cons, if_neg h]

theorem collapse3_length_le : ∀ s : Str, (collapse3 s).length ≤ s.length
  | [] => by rw [collapse3_nil]
  | a :: rest => by
    rw [collapse3_cons]
    split
    next h =>
      have h2 : 2 ≤ rest.length := by
        have := congrArg List.length h.2
        simp only [List.length_take, List.length_cons, List.length_nil] at this
        omega
      have ih := collapse3_length_le (rest.drop 2)
      simp only [List.length_cons, List.length_drop] at *
      omega
    next =>
      have ih := collapse3_length_le rest
      simp only [List.length_cons]
      omega
termination_by s => s.length
decreasing_by
  all_goals simp only [List.length_cons, List.length_drop]
  all_goals omega

theorem collapse3_length_lt : ∀ s : Str, hasTriple '\n' s = true → (collapse3 s).length < s.length
  | [], h => by rw [hasTriple_nil] at h; exact absurd h (by simp)
  | [a], h => by simp [hasTriple, startsTriple, hasTriple_nil] at h
  | [a, b], h => by simp [hasTriple, startsTriple, hasTriple_nil] at h
  | a :: b :: c :: rest, h => by
    rw [collapse3_cons]
    split
    next =>
      have ih := collapse3_length_le ((b :: c :: rest).drop 2)
      simp only [List.drop_succ_cons, List.drop_zero] at ih
      simp only [List.drop_succ_cons, List.drop_zero, List.length_cons]
      omega
    next hc =>
      rw [hasTriple, Bool.or_eq_true] at h
      have hb : hasTriple '\n' (b :: c :: rest) = true := by
        rcases h with h1 | h2
        · simp only [startsTriple, Bool.and_eq_true, decide_eq_true_eq] at h1
          exact absurd ⟨h1.1.1, by simp [h1.1.2, h1.2]⟩ hc
        · exact h2
      have ih := collapse3_length_lt (b :: c :: rest) hb
      simp only [List.length_cons] at *
      omega
termination_by s => s.length
decreasing_by simp only [List.length_cons]; omega

theorem collapseLoopF_congr : ∀ (n m : Nat) (s : Str), s.length ≤ n → s.length ≤ m →
    collapseLoopF n s = collapseLoopF m s
  | 0, 0, s, _, _ => rfl
  | 0, m + 1, s, hn, _ => by
    have hs : s = [] := List.eq_nil_of_length_eq_zero (Nat.le_zero.1 hn)
    subst hs
    rw [collapseLoopF, collapseLoopF, if_neg (by rw [hasTriple_nil]; simp)]
  | n + 1, 0, s, _, hm => by
    have hs : s = [] := List.eq_nil_of_length_eq_zero (Nat.le_zero.1 hm)
    subst hs
    rw [collapseLoopF, collapseLoopF, if_neg (by rw [hasTriple_nil]; simp)]
  | n + 1, m + 1, s, hn, hm => by
    rw [collapseLoopF, collapseLoopF]
    split
    · next h =>
      have hlt := collapse3_length_lt s h
      exact collapseLoopF_congr n m (collapse3 s) (by omega) (by omega)
    · rfl

theorem collapseLoop_eq (s : Str) :
    collapseLoop s = if hasTriple '\n' s = true then collapseLoop (collapse3 s) else s := by
  show collapseLoopF s.length s = _
  rcases s with _ | ⟨c, r⟩
  · show collapseLoopF 0 [] = _
    rw [collapseLoopF, if_neg (by rw [hasTriple_nil]; simp)]
  · show collapseLoopF (r.length + 1) (c :: r) = _
    rw [collapseLoopF]
    split
    · next h =>
      have hlt := collapse3_length_lt (c :: r) h
      simp only [List.length_cons] at hlt
      exact collapseLoopF_congr r.length (collapse3 (c :: r)).length (collapse3 (c :: r))
        (by omega) (Nat.le_refl _)
    · rfl

/-! ## Word lemmas for `strings.Fields` -/
theorem fields_nil : fields [] = [] := rfl

theorem fields_cons_space (c : Char) (r : Str) (h : isGoSpace c = true) :
    fields (c :: r) = fields r := by
  show fieldsF (r.length + 1) (c :: r) = fields r
  rw [fieldsF, if_pos h]
  rfl

theorem fields_cons_nonspace (c : Char) (r : Str) (h : isGoSpace c = false) :
    fields (c :: r) =
      (c :: r.takeWhile fun d => !isGoSpace d) :: fields (r.dropWhile fun d => !isGoSpace d) := by
  show fieldsF (r.length + 1) (c :: r) = _
  rw [fieldsF, if_neg (by simp [h]), fieldsF_eq r.length _ (dropWhile_length_le _ r)]

theorem takeWhile_append_of_all (p : Char → Bool) (a b : Str) (h : ∀ x ∈ a, p x = true) :
    (a ++ b).takeWhile p = a ++ b.takeWhile p := by
  induction a with
  | nil => simp
  | cons c a ih =>
    have hc : p c = true := h c (by simp)
    simp only [List.cons_append, List.takeWhile_cons, hc, if_true]
    rw [ih fun x hx => h x (by simp [hx])]

theorem dropWhile_append_of_all (p : Char → Bool) (a b : Str) (h : ∀ x ∈ a, p x = true) :
    (a ++ b).dropWhile p = b.dropWhile p := by
  induction a with
  | nil => simp
  | cons c a ih =>
    have hc : p c = true := h c (by simp)
    simp only [List.cons_append, List.dropWhile_cons, hc, if_true]
    exact ih fun x hx => h x (by simp [hx])

theorem takeWhile_append_of_bad (p : Char → Bool) (a b : Str) (h : ¬∀ x ∈ a, p x = true) :
    (a ++ b).takeWhile p = a.takeWhile p := by
  induction a with
  | nil => exact absurd (by simp) h
  | cons c a ih =>
    by_cases hc : p c = true
    · simp only [List.cons_append, List.takeWhile_cons, hc, if_true]
      have hrest : ¬∀ x ∈ a, p x = true := fun hall => h fun x hx => by
        rcases List.mem_cons.1 hx with rfl | hx
        · exact hc
        · exact hall x hx
      rw [ih hrest]
    · simp [List.takeWhile_cons, hc]

theorem dropWhile_append_of_bad (p : Char → Bool) (a b : Str) (h : ¬∀ x ∈ a, p x = true) :
    (a ++ b).dropWhile p = a.dropWhile p ++ b := by
  induction a with
  | nil => exact absurd (by simp) h
  | cons c a ih =>
    by_cases hc : p c = true
    · simp only [List.cons_append, List.dropWhile_cons, hc, if_true]
      have hrest : ¬∀ x ∈ a, p x = true := fun hall => h fun x hx => by
        rcases List.mem_cons.1 hx with rfl | hx
        · exact hc
        · exact hall x hx
      exact ih hrest
    · simp [List.dropWhile_cons, hc]

/-- Splitting at a definite whitespace boundary splits the word list. -/
theorem fields_append_space (c : Char) (hc : isGoSpace c = true) :
    ∀ a b : Str, fields (a ++ c :: b) = fields a ++ fields b
  | [], b => by
    rw [List.nil_append, fields_cons_space c b hc, fields_nil, List.nil_append]
  | d :: a, b => by
    by_cases hd : isGoSpace d = true
    · rw [List.cons_append, fields_cons_space d _ hd, fields_cons_space d _ hd]
      exact fields_append_space c hc a b
    · have hd' : isGoSpace d = false := by simpa using hd
      rw [List.cons_append, fields_cons_nonspace d _ hd', fields_cons_nonspace d _ hd']
      by_cases hall : ∀ x ∈ a, (!isGoSpace x) = true
      · rw [takeWhile_append_of_all _ a (c :: b) hall,
            dropWhile_append_of_all _ a (c :: b) hall]
        have hcb : (c :: b).takeWhile (fun x => !isGoSpace x) = [] := by
          simp [List.takeWhile_cons, hc]
        have hcb' : (c :: b).dropWhile (fun x => !isGoSpace x) = c :: b := by
          simp [List.dropWhile_cons, hc]
        rw [hcb, hcb', List.takeWhile_eq_self_iff.2 hall, List.dropWhile_eq_nil_iff.2 hall,
            List.append_nil, fields_cons_space c b hc, fields_nil]
        simp
      · rw [takeWhile_append_of_bad _ a (c :: b) hall,
            dropWhile_append_of_bad _ a (c :: b) hall,
            fields_append_space c hc (a.dropWhile fun x => !isGoSpace x) b]
        simp
termination_by a => a.length
decreasing_by
  · simp only [List.length_cons]; omega
  · simp only [List.length_cons]
    exact Nat.lt_succ_of_le (dropWhile_length_le _ a)

/-- `fields` of a single word. -/
theorem fields_of_goodWord (w : Str) (hw : goodWord w) : fields w = [w] := by
  obtain ⟨hne, hns⟩ := hw
  match w, hne with
  | d :: r, _ =>
    rw [fields_cons_nonspace d r (hns d (by simp))]
    have hall : ∀ x ∈ r, (!isGoSpace x) = true := fun x hx => by
      simp [hns x (by simp [hx])]
    rw [List.takeWhile_eq_self_iff.2 hall, List.dropWhile_eq_nil_iff.2 hall, fields_nil]

/-- Every word `fields` produces is a `goodWord`. -/
theorem fields_goodWord : ∀ s : Str, ∀ w ∈ fields s, goodWord w
  | [], w, hw => by rw [fields_nil] at hw; simp at hw
  | c :: r, w, hw => by
    by_cases hc : isGoSpace c = true
    · rw [fields_cons_space c r hc] at hw
      exact fields_goodWord r w hw
    · have hc' : isGoSpace c = false := by simpa using hc
      rw [fields_cons_nonspace c r hc'] at hw
      rcases List.mem_cons.1 hw with rfl | hw'
      · refine ⟨by simp, fun x hx => ?_⟩
        rcases List.mem_cons.1 hx with rfl | hx'
        · exact hc'
        · simpa using List.mem_takeWhile_imp hx'
      · exact fields_goodWord (r.dropWhile fun d => !isGoSpace d) w hw'
termination_by s => s.length
decreasing_by
  · simp only [List.length_cons]; omega
  · simp only [List.length_cons]
    exact Nat.lt_succ_of_le (dropWhile_length_le _ r)

/-! ## Word preservation of the wrap engine -/
theorem wtGo_acc (m : Nat) : ∀ (ws : List Str) (ll : Nat) (a x : Str),
    wtGo m ws ll (a ++ x) = a ++ wtGo m ws ll x
  | [], _, _, _ => by rw [wtGo, wtGo]
  | w :: ws, ll, a, x => by
    rw [wtGo, wtGo]
    split
    · rw [List.append_assoc]
      exact wtGo_acc m ws w.length a (x ++ '\n' :: w)
    · rw [List.append_assoc]
      exact wtGo_acc m ws (ll + 1 + w.length) a (x ++ ' ' :: w)

theorem fields_wtGo (m : Nat) : ∀ (ws : List Str) (ll : Nat) (acc : Str),
    (∀ w ∈ ws, goodWord w) → fields (wtGo m ws ll acc) = fields acc ++ ws
  | [], _, acc, _ => by rw [wtGo, List.append_nil]
  | w :: ws, ll, acc, hg => by
    have hw : goodWord w := hg w (by simp)
    have hws : ∀ v ∈ ws, goodWord v := fun v hv => hg v (by simp [hv])
    have hnl : isGoSpace '\n' = true := by decide
    have hsp : isGoSpace ' ' = true := by decide
    rw [wtGo]
    split
    · rw [fields_wtGo m ws w.length (acc ++ '\n' :: w) hws,
        fields_append_space '\n' hnl acc w, fields_of_goodWord w hw, List.append_assoc]
      rfl
    · rw [fields_wtGo m ws (ll + 1 + w.length) (acc ++ ' ' :: w) hws,
        fields_append_space ' ' hsp acc w, fields_of_goodWord w hw, List.append_assoc]
      rfl

theorem wbGo_emit (m : Nat) : ∀ (ws : List Str) (ll : Nat) (x : Str),
    wbGo m ws ll x = x ++ wbGo m ws ll []
  | [], _, _ => by rw [wbGo, wbGo, List.append_nil]
  | w :: ws, ll, x => by
    rw [wbGo, wbGo]
    split
    · rw [wbGo_emit m ws w.length (x ++ '\n' :: '>' :: ' ' :: w),
        wbGo_emit m ws w.length ([] ++ '\n' :: '>' :: ' ' :: w)]
      simp
    · rw [wbGo_emit m ws (ll + 1 + w.length) (x ++ ' ' :: w),
        wbGo_emit m ws (ll + 1 + w.length) ([] ++ ' ' :: w)]
      simp

theorem unqGo_append_of_nonl (a b : Str) (h : ∀ c ∈ a, c ≠ '\n') :
    unqGo (a ++ b) = a ++ unqGo b := by
  induction a with
  | nil => simp
  | cons c a ih =>
    rw [List.cons_append, unqGo,
      if_neg (fun hx => absurd hx.1 (h c (by simp))), ih fun x hx => h x (by simp [hx])]
    simp

theorem unqGo_of_nonl (a : Str) (h : ∀ c ∈ a, c ≠ '\n') : unqGo a = a := by
  have h2 := unqGo_append_of_nonl a [] h
  rw [List.append_nil] at h2
  rw [h2, unqGo, List.append_nil]

theorem unqGo_marker (r : Str) : unqGo ('\n' :: '>' :: ' ' :: r) = '\n' :: unqGo r := by
  rw [unqGo]
  simp

/-- Words of a `goodWord` never contain a newline. -/
theorem goodWord_nonl (w : Str) (hw : goodWord w) : ∀ c ∈ w, c ≠ '\n' := by
  intro c hc hnl
  subst hnl
  have := hw.2 '\n' hc
  simp [isGoSpace] at this

theorem fields_wbGo_unq (m : Nat) : ∀ (ws : List Str) (ll : Nat) (a : Str),
    (∀ w ∈ ws, goodWord w) → (∀ c ∈ a, c ≠ '\n') →
    fields (unqGo (a ++ wbGo m ws ll [])) = fields a ++ ws
  | [], _, a, _, ha => by
    rw [wbGo, List.append_nil, unqGo_of_nonl a ha, List.append_nil]
  | w :: ws, ll, a, hg, ha => by
    have hw : goodWord w := hg w (by simp)
    have hws : ∀ v ∈ ws, goodWord v := fun v hv => hg v (by simp [hv])
    have hwn : ∀ c ∈ w, c ≠ '\n' := goodWord_nonl w hw
    have hnl : isGoSpace '\n' = true := by decide
    have hsp : isGoSpace ' ' = true := by decide
    rw [wbGo]
    split
    · rw [List.nil_append, wbGo_emit m ws w.length ('\n' :: '>' :: ' ' :: w)]
      have e : ('\n' :: '>' :: ' ' :: w) ++ wbGo m ws w.length [] =
          '\n' :: '>' :: ' ' :: (w ++ wbGo m ws w.length []) := by simp
      rw [e, unqGo_append_of_nonl a _ ha, unqGo_marker,
        fields_append_space '\n' hnl a _,
        fields_wbGo_unq m ws w.length w hws hwn, fields_of_goodWord w hw]
      rfl
    · rw [List.nil_append, wbGo_emit m ws (ll + 1 + w.length) (' ' :: w)]
      have ha' : ∀ c ∈ a ++ ' ' :: w, c ≠ '\n' := by
        intro c hc
        rcases List.mem_append.1 hc with hc | hc
        · exact ha c hc
        · rcases List.mem_cons.1 hc with rfl | hc
          · decide
          · exact hwn c hc
      rw [← List.append_assoc]
      rw [fields_wbGo_unq m ws (ll + 1 + w.length) (a ++ ' ' :: w) hws ha',
        fields_append_space ' ' hsp a w, fields_of_goodWord w hw, List.append_assoc]
      rfl

/-- `wrapText` preserves the word sequence. -/
theorem fields_wrapText (s : Str) (m : Nat) : fields (wrapText s m) = fields s := by
  rw [wrapText]
  split
  · rfl
  · rcases h : fields s with _ | ⟨w, ws⟩
    · exact fields_nil
    · show fields (wtGo m ws w.length w) = w :: ws
      have hw : goodWord w := fields_goodWord s w (by rw [h]; simp)
      have hws : ∀ v ∈ ws, goodWord v := fun v hv => fields_goodWord s v (by rw [h]; simp [hv])
      rw [fields_wtGo m ws w.length w hws, fields_of_goodWord w hw]
      rfl

/-- `wrapTextWithPrefix` preserves the word sequence beyond the prefix. -/
theorem fields_wrapTextWithPrefix (pfx s : Str) (m : Nat) :
    fields ((wrapTextWithPrefix pfx s m).drop pfx.length) = fields s := by
  rw [wrapTextWithPrefix]
  split
  · rw [List.drop_left]
  · rcases h : fields s with _ | ⟨w, ws⟩
    · show fields (pfx.drop pfx.length) = []
      rw [List.drop_length]
      exact fields_nil
    · show fields ((wtGo m ws (pfx.length + w.length) (pfx ++ w)).drop pfx.length) = w :: ws
      have hw : goodWord w := fields_goodWord s w (by rw [h]; simp)
      have hws : ∀ v ∈ ws, goodWord v := fun v hv => fields_goodWord s v (by rw [h]; simp [hv])
      rw [wtGo_acc m ws (pfx.length + w.length) pfx w, List.drop_left,
        fields_wtGo m ws (pfx.length + w.length) w hws, fields_of_goodWord w hw]
      rfl

/-- `wrapBlockquote` preserves the word sequence once the `"> "` markers are
stripped, for newline-free input (the formatter only quotes single-line
attribution strings). -/
theorem fields_wrapBlockquote (s : Str) (m : Nat) (hs : ∀ c ∈ s, c ≠ '\n') :
    fields (unquoteBlock (wrapBlockquote s m)) = fields s := by
  rw [wrapBlockquote]
  split
  · rw [unquoteBlock, if_pos (by simp)]
    simpa using congrArg fields (unqGo_of_nonl s hs)
  · rcases h : fields s with _ | ⟨w, ws⟩
    · show fields (unquoteBlock ['>', ' ']) = []
      rw [unquoteBlock, if_pos (by simp)]
      have hd : List.drop 2 (['>', ' '] : Str) = [] := rfl
      rw [hd, unqGo, fields_nil]
    · show fields (unquoteBlock (wbGo (m - 2) ws w.length ('>' :: ' ' :: w))) = w :: ws
      have hw : goodWord w := fields_goodWord s w (by rw [h]; simp)
      have hws : ∀ v ∈ ws, goodWord v := fun v hv => fields_goodWord s v (by rw [h]; simp [hv])
      rw [wbGo_emit (m - 2) ws w.length ('>' :: ' ' :: w)]
      have e : ('>' :: ' ' :: w) ++ wbGo (m - 2) ws w.length [] =
          '>' :: ' ' :: (w ++ wbGo (m - 2) ws w.length []) := by simp
      rw [e, unquoteBlock, if_pos (by simp), List.drop_succ_cons, List.drop_succ_cons,
        List.drop_zero]
      rw [fields_wbGo_unq (m - 2) ws w.length w hws (goodWord_nonl w hw),
        fields_of_goodWord w hw]
      rfl

/-! ## Bound lemmas for `forceWrapLine` -/
theorem hardSplit_spec (m : Nat) (hm : 0 < m) : ∀ w : Str,
    (∀ c ∈ (hardSplit m w).1, c.length = m) ∧ (hardSplit m w).2.length ≤ m
  | w => by
    rw [hardSplit_eq]
    split
    · next hc =>
      obtain ⟨ih1, ih2⟩ := hardSplit_spec m hm (w.drop m)
      refine ⟨fun c hcm => ?_, by simpa using ih2⟩
      rcases List.mem_cons.1 hcm with rfl | hcm
      · simp only [List.length_take]
        omega
      · exact ih1 c hcm
    · next hc =>
      refine ⟨by simp, ?_⟩
      simp only []
      omega
termination_by w => w.length
decreasing_by simp only [List.length_drop]; omega

theorem fwGo_bound (pfx : Str) (m : Nat) (hm : 0 < m) :
    ∀ (ws : List Str) (cur : Str) (ll : Nat) (acc : List Str),
      cur.length = pfx.length + ll → ll ≤ m →
      (∀ l ∈ acc, l.length ≤ pfx.length + m) →
      ∀ l ∈ fwGo pfx m ws cur ll acc, l.length ≤ pfx.length + m
  | [], cur, ll, acc, hcur, hll, hacc, l, hl => by
    rw [fwGo] at hl
    split at hl
    · rcases List.mem_append.1 hl with h | h
      · exact hacc l h
      · simp only [List.mem_singleton] at h
        subst h
        omega
    · exact hacc l hl
  | w :: ws, cur, ll, acc, hcur, hll, hacc, l, hl => by
    rw [fwGo] at hl
    split at hl
    · next hlong =>
      obtain ⟨hchunks, hrem⟩ := hardSplit_spec m hm w
      have hacc2 : ∀ x ∈ (if 0 < ll then acc ++ [cur] else acc) ++
          (hardSplit m w).1.map (fun c => pfx ++ c), x.length ≤ pfx.length + m := by
        intro x hx
        rcases List.mem_append.1 hx with hx | hx
        · split at hx
          · rcases List.mem_append.1 hx with hx | hx
            · exact hacc x hx
            · simp only [List.mem_singleton] at hx
              subst hx
              omega
          · exact hacc x hx
        · obtain ⟨c, hcmem, rfl⟩ := List.mem_map.1 hx
          simp [hchunks c hcmem]
      split at hl
      · exact fwGo_bound pfx m hm ws _ _ _ (by simp) hrem hacc2 l hl
      · exact fwGo_bound pfx m hm ws _ _ _ (by simp) (Nat.zero_le m) hacc2 l hl
    · next hlong =>
      split at hl
      · next hover =>
        have hwl : w.length ≤ m := by omega
        refine fwGo_bound pfx m hm ws _ _ _ (by simp) hwl ?_ l hl
        intro x hx
        rcases List.mem_append.1 hx with hx | hx
        · exact hacc x hx
        · simp only [List.mem_singleton] at hx
          subst hx
          omega
      · next hover =>
        have hfit : ll + 1 + w.length ≤ m := by omega
        refine fwGo_bound pfx m hm ws _ _ _ ?_ hfit hacc l hl
        simp only [List.length_append, List.length_cons, hcur]
        omega

theorem fwStart_bound (pfx : Str) (m : Nat) (hm : 0 < m) (ws : List Str) :
    ∀ l ∈ fwStart pfx m ws, l.length ≤ pfx.length + m := by
  rcases ws with _ | ⟨w, ws⟩
  · intro l hl
    rw [fwStart] at hl
    simp at hl
  · intro l hl
    rw [fwStart] at hl
    obtain ⟨hchunks, hrem⟩ := hardSplit_spec m hm w
    have haccm : ∀ x ∈ (hardSplit m w).1.map (fun c => pfx ++ c),
        x.length ≤ pfx.length + m := by
      intro x hx
      obtain ⟨c, hcmem, rfl⟩ := List.mem_map.1 hx
      simp [hchunks c hcmem]
    split at hl
    · split at hl
      · exact fwGo_bound pfx m hm ws _ _ _ (by simp) hrem haccm l hl
      · exact fwGo_bound pfx m hm ws _ _ _ (by simp) (Nat.zero_le m) haccm l hl
    · next hlong =>
      exact fwGo_bound pfx m hm ws _ _ _ (by simp) (by omega) (by simp) l hl

/-! ## Claim C1 -/
/-- **C1, counterexample**: the claim is false for `wrapText`: an 81-character
word at width 80 is returned whole, a single output line of length 81 > 80
that is not a width-sized hard-split chunk — `wrapText`, `wrapTextWithPrefix`
and `wrapBlockquote` never hard-split; only `forceWrapLine` does. -/
theorem c1_overlong_word_counterexample :
    wrapText (List.replicate 81 'a') 80 = List.replicate 81 'a' ∧
    splitCh '\n' (wrapText (List.replicate 81 'a') 80) = [List.replicate 81 'a'] ∧
    80 < (List.replicate 81 'a').length := by
  decide

/-- **C1** (amended): the width bound with the hard-split exception holds for
`forceWrapLine`, the wrapper `FixCommonIssues` applies: for a non-heading
line whose text contains at least one word, every output line of
`forceWrapLine(line, w)` has length ≤ `w` (hard-split chunks come out at
exactly `w`, prefix included), provided the effective budget is positive
(`w ≥ 3` for `"> "`-prefixed lines, `w ≥ 1` otherwise).  The plain wrap
functions `wrapText`/`wrapTextWithPrefix`/`wrapBlockquote` do not hard-split:
a word longer than the width appears whole on its own output line there. -/
theorem c1_forceWrapLine_bound (line : Str) (maxLen : Nat)
    (hh : startsHash line = false)
    (hw : fields (if bqMarked line then line.drop 2 else line) ≠ [])
    (hm : if bqMarked line then 3 ≤ maxLen else 1 ≤ maxLen) :
    ∀ l ∈ forceWrapLine line maxLen, l.length ≤ maxLen := by
  rw [forceWrapLine, if_neg (by simp [hh])]
  by_cases hbq : bqMarked line = true
  · rw [if_pos hbq]
    rw [if_pos hbq] at hw
    rw [if_pos hbq] at hm
    rw [if_neg hw]
    intro l hl
    have := fwStart_bound ['>', ' '] (maxLen - 2) (by omega) (fields (line.drop 2)) l hl
    simp only [List.length_cons, List.length_nil] at this
    omega
  · simp only [Bool.not_eq_true] at hbq
    rw [if_neg (by simp [hbq])]
    rw [if_neg (by simp [hbq])] at hw
    rw [if_neg (by simp [hbq])] at hm
    rw [if_neg hw]
    intro l hl
    have := fwStart_bound [] maxLen (by omega) (fields line) l hl
    simpa using this

/-- Witness for **C1**: a blockquote line with an over-long word, wrapped at
width 10; the first output line obeys the bound. -/
theorem c1_forceWrapLine_bound_witness :
    startsHash ("> zzzzzzzzzzzz ok".data) = false ∧
    ((forceWrapLine ("> zzzzzzzzzzzz ok".data) 10).headD []).length ≤ 10 :=
  ⟨by decide,
   c1_forceWrapLine_bound ("> zzzzzzzzzzzz ok".data) 10 (by decide) (by decide) (by decide)
     ((forceWrapLine ("> zzzzzzzzzzzz ok".data) 10).headD []) (by decide)⟩

/-! ## Claim C9 -/
/-- **C9, counterexample**: `GenerateMarkdown` rewrites the upload date purely
on length 8 — `"abcdefgh"` is not made of digits yet still becomes
`"abcd-ef-gh"`, contradicting "exactly when the string consists of exactly 8
digits". -/
theorem c9_nondigit_rewrite_counterexample :
    normalizeUploadDate "abcdefgh".data = "abcd-ef-gh".data ∧
    ¬(∀ c ∈ ("abcdefgh".data : Str), c.isDigit = true) := by
  constructor
  · decide
  · decide

/-- **C9** (amended): the upload-date rewrite of `GenerateMarkdown` fires
exactly when the string has length 8 — whatever its characters: an 8-char
string `y1y2y3y4m1m2d1d2` becomes `y1y2y3y4-m1m2-d1d2`, and any string of a
different length (e.g. 7 characters) passes through unchanged. -/
theorem c9_upload_date_normalization (y1 y2 y3 y4 m1 m2 d1 d2 : Char) (u : Str) :
    normalizeUploadDate [y1, y2, y3, y4, m1, m2, d1, d2] =
      [y1, y2, y3, y4, '-', m1, m2, '-', d1, d2] ∧
    (u.length ≠ 8 → normalizeUploadDate u = u) := by
  constructor
  · rfl
  · intro h
    rw [normalizeUploadDate, if_neg h]

/-- Witness for **C9**: scenario C — `"20240115"` becomes `"2024-01-15"` and
the 7-character `"2024011"` passes through. -/
theorem c9_upload_date_normalization_witness :
    normalizeUploadDate "20240115".data = "2024-01-15".data ∧
    normalizeUploadDate "2024011".data = "2024011".data :=
  ⟨(c9_upload_date_normalization '2' '0' '2' '4' '0' '1' '1' '5' []).1,
   (c9_upload_date_normalization '2' '0' '2' '4' '0' '1' '1' '5' ("2024011".data)).2
     (by decide)⟩

/-! ## Claim C10 -/
/-- **C10**: wrapping preserves content. The whitespace-delimited word
sequence of `wrapText s w` equals that of `s`; for `wrapTextWithPrefix` the
same holds after dropping the prefix; for `wrapBlockquote` it holds after
stripping the `"> "` markers, for input without raw newlines (the formatter
only quotes single-line attribution text). -/
theorem c10_wrap_preserves_words (s pfx : Str) (w : Nat) :
    fields (wrapText s w) = fields s ∧
    fields ((wrapTextWithPrefix pfx s w).drop pfx.length) = fields s ∧
    ((∀ c ∈ s, c ≠ '\n') → fields (unquoteBlock (wrapBlockquote s w)) = fields s) :=
  ⟨fields_wrapText s w, fields_wrapTextWithPrefix pfx s w,
   fun hs => fields_wrapBlockquote s w hs⟩

/-- Witness for **C10** at a concrete attribution-style string. -/
theorem c10_wrap_preserves_words_witness :
    fields (wrapText ("Transcribed from Some Channel on 2024-01-15".data) 20) =
      fields ("Transcribed from Some Channel on 2024-01-15".data) ∧
    fields (unquoteBlock (wrapBlockquote ("Transcribed from Some Channel on 2024-01-15".data) 20)) =
      fields ("Transcribed from Some Channel on 2024-01-15".data) :=
  ⟨(c10_wrap_preserves_words ("Transcribed from Some Channel on 2024-01-15".data) [] 20).1,
   (c10_wrap_preserves_words ("Transcribed from Some Channel on 2024-01-15".data) [] 20).2.2
     (by decide)⟩

/-! ## Blank-line structure of the fix-up output -/
theorem collapseLoop_no_triple : ∀ s : Str, hasTriple '\n' (collapseLoop s) = false
  | s => by
    rw [collapseLoop_eq]
    split
    · next h =>
      have hlt := collapse3_length_lt s h
      exact collapseLoop_no_triple (collapse3 s)
    · next h =>
      simpa using h
termination_by s => s.length
decreasing_by exact collapse3_length_lt s (by assumption)

theorem startsTriple_extend (q : Char) (a b : Str) (h : startsTriple q a = true) :
    startsTriple q (a ++ b) = true := by
  match a with
  | x :: y :: z :: r => simpa [startsTriple] using h
  | [] => simp [startsTriple] at h
  | [x] => simp [startsTriple] at h
  | [x, y] => simp [startsTriple] at h

theorem hasTriple_of_prefix (q : Char) : ∀ a b : Str,
    hasTriple q (a ++ b) = false → hasTriple q a = false
  | [], _, _ => hasTriple_nil q
  | c :: r, b, h => by
    rw [List.cons_append, hasTriple, Bool.or_eq_false_iff] at h
    rw [hasTriple, Bool.or_eq_false_iff]
    refine ⟨?_, hasTriple_of_prefix q r b h.2⟩
    by_contra hs
    rw [Bool.not_eq_false] at hs
    have := startsTriple_extend q (c :: r) b hs
    rw [List.cons_append] at this
    rw [this] at h
    exact absurd h.1 (by simp)

theorem dropWhile_head_not (p : Char → Bool) : ∀ l : Str,
    l.dropWhile p = [] ∨ ∃ c r, l.dropWhile p = c :: r ∧ p c = false
  | [] => Or.inl rfl
  | c :: r => by
    by_cases hc : p c = true
    · rw [List.dropWhile_cons, if_pos hc]
      exact dropWhile_head_not p r
    · rw [List.dropWhile_cons, if_neg hc]
      exact Or.inr ⟨c, r, rfl, by simpa using hc⟩

theorem trimRightNl_decomp (s : Str) :
    s = trimRightNl s ++ (s.reverse.takeWhile fun c => c = '\n').reverse := by
  rw [trimRightNl, ← List.reverse_append, List.takeWhile_append_dropWhile, List.reverse_reverse]

theorem trimRightNl_getLast (s : Str) (c : Char) (h : (trimRightNl s).getLast? = some c) :
    c ≠ '\n' := by
  rw [trimRightNl, List.getLast?_reverse] at h
  rcases dropWhile_head_not (fun c => c = '\n') s.reverse with hd | ⟨d, r, hd, hdp⟩
  · rw [hd] at h
    simp at h
  · rw [hd] at h
    simp only [List.head?_cons, Option.some.injEq] at h
    subst h
    simpa using hdp

theorem hasTriple_snoc (q : Char) : ∀ s : Str,
    hasTriple q s = false → (∀ c, s.getLast? = some c → c ≠ q) →
    hasTriple q (s ++ [q]) = false
  | [], _, _ => by
    rw [List.nil_append, hasTriple, hasTriple_nil]
    simp [startsTriple]
  | [x], h, hl => by
    have hx : x ≠ q := hl x rfl
    rw [show ([x] ++ [q] : Str) = [x, q] by rfl, hasTriple, hasTriple, hasTriple_nil]
    simp [startsTriple, hx]
  | x :: y :: r, h, hl => by
    rw [hasTriple, Bool.or_eq_false_iff] at h
    have hl' : ∀ c, (y :: r).getLast? = some c → c ≠ q := by
      intro c hc
      exact hl c (by rwa [List.getLast?_cons_cons])
    have ih := hasTriple_snoc q (y :: r) h.2 hl'
    rw [List.cons_append, hasTriple, Bool.or_eq_false_iff]
    refine ⟨?_, by simpa using ih⟩
    match y, r with
    | y, [] =>
      have hy : y ≠ q := hl y (by rw [List.getLast?_cons_cons]; rfl)
      simp [startsTriple, hy]
    | y, z :: r' =>
      have := h.1
      simpa [startsTriple] using this

/-- After `fixCommonIssues` the document never contains `"\n\n\n"`, i.e.
never two consecutive blank lines. -/
theorem fixCommonIssues_no_triple (x : Str) :
    hasTriple '\n' (fixCommonIssues x) = false := by
  rw [fixCommonIssues]
  set c := joinCh '\n' (fciLines (splitCh '\n' x) false) with hc
  have hfree : hasTriple '\n' (trimRightNl (collapseLoop c)) = false := by
    have hdec := trimRightNl_decomp (collapseLoop c)
    exact hasTriple_of_prefix '\n' _ _ (hdec ▸ collapseLoop_no_triple c)
  exact hasTriple_snoc '\n' _ hfree (trimRightNl_getLast _)

/-! ## Claim C6 -/
/-- **C6, counterexample**: `"a\n\n\nb\n"` contains a run of exactly two
consecutive blank lines, which the claim says is preserved as-is; fix-up
collapses it to a single blank line. -/
theorem c6_two_blank_lines_counterexample :
    fixCommonIssues ("a\n\n\nb\n".data) = "a\n\nb\n".data ∧
    ("a\n\n\nb\n".data : Str) ≠ "a\n\nb\n".data := by
  decide

/-- **C6** (amended): `FixCommonIssues` collapses every run of `N ≥ 2`
consecutive blank lines to exactly one blank line — the output never contains
`"\n\n\n"` — and only runs of a single blank line are preserved: a run of 3
blank lines becomes 1, and a document whose blank-line runs all have length 1
keeps them. -/
theorem c6_blank_line_collapse (x : Str) :
    hasTriple '\n' (fixCommonIssues x) = false ∧
    fixCommonIssues ("a\n\n\n\nb\n".data) = "a\n\nb\n".data ∧
    fixCommonIssues ("a\n\nb\n".data) = "a\n\nb\n".data :=
  ⟨fixCommonIssues_no_triple x, by decide, by decide⟩

theorem joinTexts_pos (acc : List Str) (h : acc ≠ []) : 0 < (joinTexts acc).length := by
  rcases acc with _ | ⟨s, r⟩
  · exact absurd rfl h
  · rw [joinTexts, List.flatMap_cons]
    simp

theorem joinTexts_snoc (acc : List Str) (s : Str) :
    joinTexts (acc ++ [s]) = joinTexts acc ++ s ++ [' '] := by
  rw [joinTexts, joinTexts, List.flatMap_append, List.flatMap_cons, List.flatMap_nil,
    List.append_nil, List.append_assoc]

theorem proseGo_renders : ∀ (segs : List Str) (i : Nat) (acc : List Str) (content : Str),
    proseGo segs i (joinTexts acc) content =
      content ++ ((paraGroups segs i acc).1.flatMap renderGroup ++
        renderTrail (paraGroups segs i acc).2)
  | [], i, acc, content => by
    rw [proseGo, paraGroups]
    simp only [List.flatMap_nil, List.nil_append]
    rcases Decidable.em (acc = []) with rfl | hne
    · rw [if_neg (by rw [joinTexts]; simp), renderTrail, if_neg (by simp)]
      rw [List.append_nil]
    · rw [if_pos (joinTexts_pos acc hne), renderTrail, if_pos hne]
      rcases Decidable.em (renderPara acc = []) with hp | hp
      · rw [renderPara] at hp
        rw [if_neg (by simpa using hp), if_neg (by simpa using hp), List.append_nil]
      · rw [renderPara] at hp
        rw [if_pos (by simpa using hp), if_pos (by simpa using hp), renderPara,
          List.append_assoc]
  | s :: rest, i, acc, content => by
    rw [proseGo, paraGroups]
    split
    · rw [← joinTexts_snoc acc s,
        show trimSpace (joinTexts (acc ++ [s])) = renderPara (acc ++ [s]) from rfl]
      have hj : joinTexts ([] : List Str) = [] := rfl
      have ih := proseGo_renders rest (i + 1) []
        (if renderPara (acc ++ [s]) ≠ [] then
          content ++ wrapText (renderPara (acc ++ [s])) maxLineLength ++ ['\n', '\n']
        else content)
      rw [hj] at ih
      rw [ih]
      simp only [List.flatMap_cons, renderGroup]
      rcases Decidable.em (renderPara (acc ++ [s]) = []) with hp | hp
      · rw [if_neg (by simpa using hp), if_neg (by simpa using hp)]
        simp
      · rw [if_pos (by simpa using hp), if_pos (by simpa using hp)]
        simp
    · rw [← joinTexts_snoc acc s]
      exact proseGo_renders rest (i + 1) (acc ++ [s]) content

/-! ## Claim C7 -/
/-- **C7, counterexample**: on `["x.", "a", "b", "c", "d", "e"]` the code
flushes after `"d"` (global position 5), not after five segments accumulated
since the `"x."` flush: the code yields `"x.\n\na b c d\n\ne\n"` while the
claim's policy would yield `"x.\n\na b c d e\n\n"`. -/
theorem c7_flush_counterexample :
    generateProseContent
        (["x.", "a", "b", "c", "d", "e"].map String.data) = "x.\n\na b c d\n\ne\n".data ∧
    claimProseContent
        (["x.", "a", "b", "c", "d", "e"].map String.data) = "x.\n\na b c d e\n\n".data ∧
    generateProseContent (["x.", "a", "b", "c", "d", "e"].map String.data) ≠
      claimProseContent (["x.", "a", "b", "c", "d", "e"].map String.data) := by
  refine ⟨by decide, by decide, by decide⟩

/-- **C7** (amended): in prose mode `GenerateMarkdown` flushes the paragraph
buffer exactly when the current segment's text ends in `.`, `?` or `!`, or
when the segment's 1-based position **in the whole sequence** is a multiple
of 5 (`(i+1) % 5 == 0` — not "5 segments since the last flush"); the
non-empty trailing partial paragraph is flushed at the end.  Stated as: the
generated body equals the rendering of the paragraph groups delimited by
exactly those flush points. -/
theorem c7_prose_flush_policy (segs : List Str) :
    generateProseContent segs = renderProse segs := by
  have h := proseGo_renders segs 0 [] []
  rw [show joinTexts [] = [] from rfl] at h
  rw [generateProseContent, h, renderProse, List.nil_append]

/-! ## Claim C2 -/
/-- **C2**: for a run in which every stage collaborator succeeds, the event
stream is exactly the grammar
`P(metadata,0) Metadata P(metadata,1) P(download,0) P(download,*)*
 P(download,1) P(transcribe,0) (Chunk P(transcribe,*))* P(transcribe,1)
 P(format,0) P(format,1) P(validate,0) P(validate,1) Completed`. -/
theorem c2_success_event_grammar (model : Str) (b : Behavior)
    (hm : b.metaErr = none) (hd : b.dlErr = none) (hbin : b.whisperBinFound = true)
    (hmod : b.whisperModelFound = true) (hw : b.waitErr = none) (hf : b.fmtErr = none) :
    runEvents model b =
      [Event.progress "metadata".data 0 "Fetching video info...".data,
       Event.metadata b.metaTitle b.metaChannel b.metaDuration,
       Event.progress "metadata".data 1 "Done".data,
       Event.progress "download".data 0 "Starting download...".data] ++
      b.dlProgress.map (fun p => Event.progress "download".data p "Downloading...".data) ++
      [Event.progress "download".data 1 "Done".data,
       Event.progress "transcribe".data 0 "Starting transcription...".data] ++
      (scanChunks b.stdoutLines).flatMap (fun c =>
        [Event.transcript c.text c.timestamp,
         Event.progress "transcribe".data c.progress "Transcribing...".data]) ++
      [Event.progress "transcribe".data 1 "Done".data,
       Event.progress "format".data 0 "Generating markdown...".data,
       Event.progress "format".data 1 "Done".data,
       Event.progress "validate".data 0 "Checking markdown...".data,
       Event.progress "validate".data 1
         (if b.lintErr then "Warnings found".data else "Passed".data),
       Event.completed b.fmtPath
         ⟨b.metaDuration, countWords (scanSegments b.stdoutLines), model⟩] := by
  rw [runEvents, hm, hd]
  simp only [transcribeRun, hbin, hmod, hw, hf, Bool.not_true, Bool.false_eq_true, if_false,
    scanChunks, scanSegments, List.cons_append, List.append_assoc, List.nil_append]

/-- Witness for **C2**: a concrete successful run (no download callbacks, no
chunks). -/
theorem c2_success_event_grammar_witness :
    runEvents "base".data
        { metaTitle := "T".data, metaChannel := "C".data, metaDuration := "1:00".data,
          metaErr := none, dlProgress := [], dlErr := none,
          whisperBinFound := true, whisperModelFound := true,
          stdoutLines := [], waitErr := none,
          fmtPath := "out.md".data, fmtErr := none, lintErr := false } =
      [Event.progress "metadata".data 0 "Fetching video info...".data,
       Event.metadata "T".data "C".data "1:00".data,
       Event.progress "metadata".data 1 "Done".data,
       Event.progress "download".data 0 "Starting download...".data,
       Event.progress "download".data 1 "Done".data,
       Event.progress "transcribe".data 0 "Starting transcription...".data,
       Event.progress "transcribe".data 1 "Done".data,
       Event.progress "format".data 0 "Generating markdown...".data,
       Event.progress "format".data 1 "Done".data,
       Event.progress "validate".data 0 "Checking markdown...".data,
       Event.progress "validate".data 1 "Passed".data,
       Event.completed "out.md".data ⟨"1:00".data, 0, "base".data⟩] := by
  rw [c2_success_event_grammar "base".data _ rfl rfl rfl rfl rfl rfl]
  rfl

/-! ## Claim C3 -/
/-- **C3**: whatever the collaborators do, `Pipeline.Run` emits exactly one
terminal event (`CompletedEvent` or `ErrorEvent`), and it is the last event:
the stream is a terminal-free prefix followed by one terminal event. -/
theorem c3_single_terminal_event (model : Str) (b : Behavior) :
    ∃ pre t, runEvents model b = pre ++ [t] ∧ t.isTerminal = true ∧
      ∀ e ∈ pre, e.isTerminal = false := by
  have hdl : ∀ e ∈ b.dlProgress.map
      (fun p => Event.progress "download".data p "Downloading...".data),
      e.isTerminal = false := by
    intro e he
    obtain ⟨p, _, rfl⟩ := List.mem_map.1 he
    rfl
  have hch : ∀ e ∈ (transcribeRun b).1.flatMap (fun c =>
      [Event.transcript c.text c.timestamp,
       Event.progress "transcribe".data c.progress "Transcribing...".data]),
      e.isTerminal = false := by
    intro e he
    obtain ⟨c, _, hc⟩ := List.mem_flatMap.1 he
    rcases List.mem_cons.1 hc with rfl | hc
    · rfl
    · rcases List.mem_cons.1 hc with rfl | hc
      · rfl
      · simp at hc
  rw [runEvents]
  cases hm : b.metaErr with
  | some err =>
    refine ⟨[Event.progress "metadata".data 0 "Fetching video info...".data],
      Event.failure "metadata".data, rfl, rfl, ?_⟩
    intro e he
    rcases List.mem_singleton.1 he with rfl
    rfl
  | none =>
    cases hd : b.dlErr with
    | some err =>
      refine ⟨Event.progress "metadata".data 0 "Fetching video info...".data ::
        Event.metadata b.metaTitle b.metaChannel b.metaDuration ::
        Event.progress "metadata".data 1 "Done".data ::
        Event.progress "download".data 0 "Starting download...".data ::
        b.dlProgress.map (fun p => Event.progress "download".data p "Downloading...".data),
        Event.failure "download".data, by simp, rfl, ?_⟩
      intro e he
      simp only [List.mem_cons] at he
      rcases he with rfl | rfl | rfl | rfl | he
      · rfl
      · rfl
      · rfl
      · rfl
      · exact hdl e he
    | none =>
      cases ht : (transcribeRun b).2 with
      | none =>
        refine ⟨Event.progress "metadata".data 0 "Fetching video info...".data ::
          Event.metadata b.metaTitle b.metaChannel b.metaDuration ::
          Event.progress "metadata".data 1 "Done".data ::
          Event.progress "download".data 0 "Starting download...".data ::
          (b.dlProgress.map (fun p => Event.progress "download".data p "Downloading...".data) ++
           Event.progress "download".data 1 "Done".data ::
           Event.progress "transcribe".data 0 "Starting transcription...".data ::
           (transcribeRun b).1.flatMap (fun c =>
             [Event.transcript c.text c.timestamp,
              Event.progress "transcribe".data c.progress "Transcribing...".data])),
          Event.failure "transcribe".data, by simp, rfl, ?_⟩
        intro e he
        simp only [List.mem_cons, List.mem_append, List.mem_nil_iff, or_false] at he
        rcases he with rfl | rfl | rfl | rfl | he | rfl | rfl | he
        · rfl
        · rfl
        · rfl
        · rfl
        · exact hdl e he
        · rfl
        · rfl
        · exact hch e he
      | some segs =>
        cases hf : b.fmtErr with
        | some err =>
          refine ⟨Event.progress "metadata".data 0 "Fetching video info...".data ::
            Event.metadata b.metaTitle b.metaChannel b.metaDuration ::
            Event.progress "metadata".data 1 "Done".data ::
            Event.progress "download".data 0 "Starting download...".data ::
            (b.dlProgress.map (fun p => Event.progress "download".data p "Downloading...".data) ++
             Event.progress "download".data 1 "Done".data ::
             Event.progress "transcribe".data 0 "Starting transcription...".data ::
             ((transcribeRun b).1.flatMap (fun c =>
               [Event.transcript c.text c.timestamp,
                Event.progress "transcribe".data c.progress "Transcribing...".data]) ++
              [Event.progress "transcribe".data 1 "Done".data,
               Event.progress "format".data 0 "Generating markdown...".data])),
            Event.failure "format".data, by simp, rfl, ?_⟩
          intro e he
          simp only [List.mem_cons, List.mem_append, List.mem_nil_iff, or_false] at he
          rcases he with rfl | rfl | rfl | rfl | he | rfl | rfl | he | rfl | rfl
          · rfl
          · rfl
          · rfl
          · rfl
          · exact hdl e he
          · rfl
          · rfl
          · exact hch e he
          · rfl
          · rfl
        | none =>
          refine ⟨Event.progress "metadata".data 0 "Fetching video info...".data ::
            Event.metadata b.metaTitle b.metaChannel b.metaDuration ::
            Event.progress "metadata".data 1 "Done".data ::
            Event.progress "download".data 0 "Starting download...".data ::
            (b.dlProgress.map (fun p => Event.progress "download".data p "Downloading...".data) ++
             Event.progress "download".data 1 "Done".data ::
             Event.progress "transcribe".data 0 "Starting transcription...".data ::
             ((transcribeRun b).1.flatMap (fun c =>
               [Event.transcript c.text c.timestamp,
                Event.progress "transcribe".data c.progress "Transcribing...".data]) ++
              [Event.progress "transcribe".data 1 "Done".data,
               Event.progress "format".data 0 "Generating markdown...".data,
               Event.progress "format".data 1 "Done".data,
               Event.progress "validate".data 0 "Checking markdown...".data,
               Event.progress "validate".data 1
                 (if b.lintErr then "Warnings found".data else "Passed".data)])),
            Event.completed b.fmtPath ⟨b.metaDuration, countWords segs, model⟩,
            by simp, rfl, ?_⟩
          intro e he
          simp only [List.mem_cons, List.mem_append, List.mem_nil_iff, or_false] at he
          rcases he with rfl | rfl | rfl | rfl | he | rfl | rfl | he | rfl | rfl | rfl | rfl | rfl
          · rfl
          · rfl
          · rfl
          · rfl
          · exact hdl e he
          · rfl
          · rfl
          · exact hch e he
          · rfl
          · rfl
          · rfl
          · rfl
          · rfl

/-! ## Claim C4 -/

/-- **C4**: when the whisper process exits with an error (`waitErr`), the
stage outcome depends solely on whether segments were captured: with at least
one segment, `Transcribe` returns them with no error and the run (formatter
succeeding) continues through Format and Validate to `CompletedEvent`; with
zero segments, `Transcribe` fails and the run ends with
`ErrorEvent{transcribe}`. -/
theorem c4_partial_transcription (model : Str) (b : Behavior) (err : Str)
    (hbin : b.whisperBinFound = true) (hmod : b.whisperModelFound = true)
    (hwait : b.waitErr = some err)
    (hm : b.metaErr = none) (hd : b.dlErr = none) (hf : b.fmtErr = none) :
    (scanSegments b.stdoutLines ≠ [] →
      (transcribeRun b).2 = some (scanSegments b.stdoutLines) ∧
      ∃ pre, runEvents model b = pre ++ [Event.completed b.fmtPath
          ⟨b.metaDuration, countWords (scanSegments b.stdoutLines), model⟩] ∧
        Event.progress "format".data 1 "Done".data ∈ pre ∧
        Event.progress "validate".data 1
          (if b.lintErr then "Warnings found".data else "Passed".data) ∈ pre) ∧
    (scanSegments b.stdoutLines = [] →
      (transcribeRun b).2 = none ∧
      ∃ pre, runEvents model b = pre ++ [Event.failure "transcribe".data]) := by
  constructor
  · intro hne
    have h2 : (transcribeRun b).2 = some (scanSegments b.stdoutLines) := by
      rw [transcribeRun, hbin, hmod, hwait]
      simp [hne]
    refine ⟨h2, Event.progress "metadata".data 0 "Fetching video info...".data ::
      Event.metadata b.metaTitle b.metaChannel b.metaDuration ::
      Event.progress "metadata".data 1 "Done".data ::
      Event.progress "download".data 0 "Starting download...".data ::
      (b.dlProgress.map (fun p => Event.progress "download".data p "Downloading...".data) ++
       Event.progress "download".data 1 "Done".data ::
       Event.progress "transcribe".data 0 "Starting transcription...".data ::
       ((transcribeRun b).1.flatMap (fun c =>
         [Event.transcript c.text c.timestamp,
          Event.progress "transcribe".data c.progress "Transcribing...".data]) ++
        [Event.progress "transcribe".data 1 "Done".data,
         Event.progress "format".data 0 "Generating markdown...".data,
         Event.progress "format".data 1 "Done".data,
         Event.progress "validate".data 0 "Checking markdown...".data,
         Event.progress "validate".data 1
           (if b.lintErr then "Warnings found".data else "Passed".data)])), ?_, ?_, ?_⟩
    · rw [runEvents, hm, hd]
      simp only [h2, hf]
      simp
    · simp
    · simp
  · intro hnil
    have h2 : (transcribeRun b).2 = none := by
      rw [transcribeRun, hbin, hmod, hwait]
      simp [hnil]
    refine ⟨h2, Event.progress "metadata".data 0 "Fetching video info...".data ::
      Event.metadata b.metaTitle b.metaChannel b.metaDuration ::
      Event.progress "metadata".data 1 "Done".data ::
      Event.progress "download".data 0 "Starting download...".data ::
      (b.dlProgress.map (fun p => Event.progress "download".data p "Downloading...".data) ++
       Event.progress "download".data 1 "Done".data ::
       Event.progress "transcribe".data 0 "Starting transcription...".data ::
       (transcribeRun b).1.flatMap (fun c =>
         [Event.transcript c.text c.timestamp,
          Event.progress "transcribe".data c.progress "Transcribing...".data])), ?_⟩
    rw [runEvents, hm, hd]
    simp only [h2]
    simp

/-- Witness for **C4**: in scenario E the two captured segments are returned
as a success despite the process error. -/
theorem c4_partial_transcription_witness :
    (transcribeRun partialRunBehavior).2 =
      some (scanSegments partialRunBehavior.stdoutLines) :=
  ((c4_partial_transcription "base".data partialRunBehavior "boom".data
      rfl rfl rfl rfl rfl rfl).1 (by decide)).1

/-! ## Claim C8 -/
theorem scanGo_progress : ∀ (lines : List Str) (n : Nat), ∀ c ∈ (scanGo lines n).2,
    ∃ k : Nat, n < k ∧ k ≤ n + lines.length ∧ c.progress = (k : ℚ) / 100
  | [], n, c, hc => by rw [scanGo] at hc; simp at hc
  | l :: ls, n, c, hc => by
    rw [scanGo] at hc
    rcases hm : findTsMatch l with _ | ⟨t1, t2, cap⟩ <;> rw [hm] at hc
    · obtain ⟨k, h1, h2, h3⟩ := scanGo_progress ls (n + 1) c hc
      exact ⟨k, by omega, by simp only [List.length_cons]; omega, h3⟩
    · dsimp only at hc
      split at hc
      · rcases List.mem_cons.1 hc with rfl | hc
        · exact ⟨n + 1, by omega, by simp, rfl⟩
        · obtain ⟨k, h1, h2, h3⟩ := scanGo_progress ls (n + 1) c hc
          exact ⟨k, by omega, by simp only [List.length_cons]; omega, h3⟩
      · obtain ⟨k, h1, h2, h3⟩ := scanGo_progress ls (n + 1) c hc
        exact ⟨k, by omega, by simp only [List.length_cons]; omega, h3⟩

theorem transcribeRun_chunks (b : Behavior) :
    (transcribeRun b).1 = [] ∨ (transcribeRun b).1 = scanChunks b.stdoutLines := by
  rw [transcribeRun]
  split
  · exact Or.inl rfl
  · split
    · exact Or.inl rfl
    · rcases b.waitErr with _ | e
      · exact Or.inr rfl
      · dsimp only
        split
        · exact Or.inr rfl
        · exact Or.inr rfl

/-- **C8** (amended): progress events emitted by `Pipeline.Run` itself carry
fractions 0 or 1; download events forward their callback values; transcribe
chunk events carry `lineCount/100`.  Hence **provided** the extractor reports
fractions in `[0,1]` **and the whisper stdout has at most 100 lines**, every
`ProgressEvent` of the run lies in `[0,1]`.  (Beyond 100 stdout lines the
fraction exceeds 1 — the original claim fails there, see the
counterexample.) -/
theorem c8_progress_fraction_bounds (model : Str) (b : Behavior)
    (hdl : ∀ p ∈ b.dlProgress, 0 ≤ p ∧ p ≤ 1)
    (hlines : b.stdoutLines.length ≤ 100) :
    ∀ st f msg, Event.progress st f msg ∈ runEvents model b → 0 ≤ f ∧ f ≤ 1 := by
  have h01 : (0 : ℚ) ≤ 0 ∧ (0 : ℚ) ≤ 1 := by norm_num
  have h11 : (0 : ℚ) ≤ 1 ∧ (1 : ℚ) ≤ 1 := by norm_num
  have hch : ∀ c ∈ (transcribeRun b).1, 0 ≤ c.progress ∧ c.progress ≤ 1 := by
    intro c hc
    rcases transcribeRun_chunks b with h | h
    · rw [h] at hc
      simp at hc
    · rw [h] at hc
      obtain ⟨k, hk1, hk2, hk3⟩ := scanGo_progress b.stdoutLines 0 c hc
      rw [hk3]
      constructor
      · positivity
      · rw [div_le_one (by norm_num)]
        exact_mod_cast (by omega : k ≤ 100)
  intro st f msg hmem
  rw [runEvents] at hmem
  cases hm : b.metaErr with
  | some err =>
    rw [hm] at hmem
    simp only [List.mem_cons, List.mem_singleton] at hmem
    rcases hmem with h | h | h
    · cases h; exact h01
    · cases h
    · simp at h
  | none =>
    rw [hm] at hmem
    cases hd : b.dlErr with
    | some err =>
      rw [hd] at hmem
      simp only [List.mem_cons, List.mem_append, List.mem_map, List.mem_singleton] at hmem
      rcases hmem with h | (h | h | h | ⟨p, hp, h⟩) | h | h
      · cases h; exact h01
      · cases h
      · cases h; exact h11
      · cases h; exact h01
      · cases h; exact hdl _ hp
      · cases h
      · simp at h
    | none =>
      rw [hd] at hmem
      cases ht : (transcribeRun b).2 with
      | none =>
        rw [ht] at hmem
        simp only [List.mem_cons, List.mem_append, List.mem_map, List.mem_flatMap,
          List.mem_singleton] at hmem
        rcases hmem with h | (h | h | h | ⟨p, hp, h⟩) | h | h | ⟨c, hc, h | h | h⟩ | h | h
        · cases h; exact h01
        · cases h
        · cases h; exact h11
        · cases h; exact h01
        · cases h; exact hdl _ hp
        · cases h; exact h11
        · cases h; exact h01
        · cases h
        · cases h; exact hch c hc
        · simp at h
        · cases h
        · simp at h
      | some segs =>
        rw [ht] at hmem
        cases hfm : b.fmtErr with
        | some err =>
          rw [hfm] at hmem
          simp only [List.mem_cons, List.mem_append, List.mem_map, List.mem_flatMap,
            List.mem_singleton] at hmem
          rcases hmem with h | (h | h | h | ⟨p, hp, h⟩) | h | h | ⟨c, hc, h | h | h⟩ | h | h | h | h
          · cases h; exact h01
          · cases h
          · cases h; exact h11
          · cases h; exact h01
          · cases h; exact hdl _ hp
          · cases h; exact h11
          · cases h; exact h01
          · cases h
          · cases h; exact hch c hc
          · simp at h
          · cases h; exact h11
          · cases h; exact h01
          · cases h
          · simp at h
        | none =>
          rw [hfm] at hmem
          simp only [List.mem_cons, List.mem_append, List.mem_map, List.mem_flatMap,
            List.mem_singleton] at hmem
          rcases hmem with
            h | (h | h | h | ⟨p, hp, h⟩) | h | h | ⟨c, hc, h | h | h⟩ | h | h | h | h | h | h | h
          · cases h; exact h01
          · cases h
          · cases h; exact h11
          · cases h; exact h01
          · cases h; exact hdl _ hp
          · cases h; exact h11
          · cases h; exact h01
          · cases h
          · cases h; exact hch c hc
          · simp at h
          · cases h; exact h11
          · cases h; exact h01
          · cases h; exact h11
          · cases h; exact h01
          · cases h; exact h11
          · cases h
          · simp at h

/-- Witness for **C8**: a concrete bounded run; the metadata "Done" progress
event carries fraction 1 ∈ [0,1]. -/
theorem c8_progress_fraction_bounds_witness : (0 : ℚ) ≤ 1 ∧ (1 : ℚ) ≤ 1 :=
  c8_progress_fraction_bounds "base".data
    { metaTitle := "T".data, metaChannel := "C".data, metaDuration := "1:00".data,
      metaErr := none, dlProgress := [], dlErr := none,
      whisperBinFound := true, whisperModelFound := true,
      stdoutLines := [], waitErr := none,
      fmtPath := "out.md".data, fmtErr := none, lintErr := false }
    (by simp) (by simp) "metadata".data 1 "Done".data
    (by rw [runEvents]; simp)

theorem scanGo_replicate_skip (junk : Str) (hj : findTsMatch junk = none) :
    ∀ (n k : Nat) (rest : List Str),
      scanGo (List.replicate n junk ++ rest) k = scanGo rest (k + n)
  | 0, k, rest => by simp
  | n + 1, k, rest => by
    rw [List.replicate_succ, List.cons_append, scanGo]
    simp only [hj]
    rw [scanGo_replicate_skip junk hj n (k + 1) rest]
    have harith : k + 1 + n = k + (n + 1) := by omega
    rw [harith]

theorem overflow_chunks :
    scanChunks overflowBehavior.stdoutLines =
      [⟨"Hello".data, "[00:01]".data, (101 : ℚ) / 100⟩] := by
  rw [scanChunks, show overflowBehavior.stdoutLines =
    List.replicate 100 "x".data ++ ["[00:00:01.000 --> 00:00:05.000] Hello".data] from rfl]
  rw [scanGo_replicate_skip "x".data (by decide) 100 0 _]
  rw [scanGo]
  have hm : findTsMatch "[00:00:01.000 --> 00:00:05.000] Hello".data =
      some ("00:00:01.000".data, "00:00:05.000".data, "Hello".data) := by decide
  simp only [hm]
  rw [if_pos (by decide)]
  rw [scanGo]
  refine congrArg (fun p => [p]) ?_
  have h1 : trimSpace "Hello".data = "Hello".data := by decide
  have h2 : formatTimestamp "00:00:01.000".data = "[00:01]".data := by decide
  rw [h1, h2]
  norm_num

/-- **C8, counterexample**: with 100 junk stdout lines before the first
segment line, the transcribe-stage `ProgressEvent` forwarded from the
per-chunk callback carries fraction `101/100 > 1`, outside `[0,1]`. -/
theorem c8_progress_above_one_counterexample :
    Event.progress "transcribe".data ((101 : ℚ) / 100) "Transcribing...".data ∈
      runEvents "base".data overflowBehavior ∧ ¬((101 : ℚ) / 100 ≤ 1) := by
  constructor
  · have hch : (transcribeRun overflowBehavior).1 =
        [⟨"Hello".data, "[00:01]".data, (101 : ℚ) / 100⟩] := by
      rw [transcribeRun]
      simp only [show overflowBehavior.whisperBinFound = true from rfl,
        show overflowBehavior.whisperModelFound = true from rfl,
        show overflowBehavior.waitErr = none from rfl, Bool.not_true, Bool.false_eq_true,
        if_false]
      exact overflow_chunks
    rw [runEvents]
    simp only [show overflowBehavior.metaErr = none from rfl,
      show overflowBehavior.dlErr = none from rfl, hch]
    simp
  · norm_num

/-! ## Split/join infrastructure for the `FixCommonIssues` idempotence study -/
theorem splitCh_ne_nil (sep : Char) : ∀ s : Str, splitCh sep s ≠ []
  | [] => by rw [splitCh]; simp
  | c :: r => by
    rw [splitCh]
    split
    · simp
    · cases h : splitCh sep r with
      | nil => simp
      | cons l ls => simp

theorem splitCh_cons_sep (sep : Char) (r : Str) :
    splitCh sep (sep :: r) = [] :: splitCh sep r := by
  rw [splitCh, if_pos rfl]

theorem splitCh_cons_ne (sep c : Char) (r : Str) (hc : c ≠ sep) :
    ∃ l ls, splitCh sep r = l :: ls ∧ splitCh sep (c :: r) = (c :: l) :: ls := by
  rcases h : splitCh sep r with _ | ⟨l, ls⟩
  · exact absurd h (splitCh_ne_nil sep r)
  · exact ⟨l, ls, rfl, by rw [splitCh, if_neg hc, h]⟩

theorem splitCh_mem_no_sep (sep : Char) : ∀ (s : Str), ∀ l ∈ splitCh sep s, sep ∉ l
  | [], l, hl => by
    rw [splitCh] at hl
    simp only [List.mem_singleton] at hl
    subst hl; simp
  | c :: r, l, hl => by
    by_cases hc : c = sep
    · rw [hc, splitCh_cons_sep] at hl
      rcases List.mem_cons.1 hl with rfl | hl
      · simp
      · exact splitCh_mem_no_sep sep r l hl
    · obtain ⟨l0, ls, h1, h2⟩ := splitCh_cons_ne sep c r hc
      rw [h2] at hl
      rcases List.mem_cons.1 hl with rfl | hl
      · intro hmem
        rcases List.mem_cons.1 hmem with heq | hmem
        · exact hc heq.symm
        · exact splitCh_mem_no_sep sep r l0 (h1 ▸ List.mem_cons_self l0 ls) hmem
      · exact splitCh_mem_no_sep sep r l (h1 ▸ List.mem_cons_of_mem l0 hl)

theorem splitCh_head_prefix (sep : Char) : ∀ s : Str,
    ∃ rest, s = (splitCh sep s).headD [] ++ rest
  | [] => ⟨[], by rw [splitCh]; rfl⟩
  | c :: r => by
    by_cases hc : c = sep
    · refine ⟨c :: r, ?_⟩
      rw [hc, splitCh_cons_sep]
      rfl
    · obtain ⟨l0, ls, h1, h2⟩ := splitCh_cons_ne sep c r hc
      obtain ⟨rest, hr⟩ := splitCh_head_prefix sep r
      rw [h1] at hr
      simp only [List.headD_cons] at hr
      refine ⟨rest, ?_⟩
      rw [h2]
      simp only [List.headD_cons, List.cons_append]
      rw [← hr]

theorem splitCh_mem_infix (sep : Char) : ∀ (s : Str), ∀ l ∈ splitCh sep s,
    ∃ a b, s = a ++ l ++ b
  | [], l, hl => by
    rw [splitCh] at hl
    simp only [List.mem_singleton] at hl
    subst hl
    exact ⟨[], [], rfl⟩
  | c :: r, l, hl => by
    by_cases hc : c = sep
    · rw [hc, splitCh_cons_sep] at hl
      rcases List.mem_cons.1 hl with rfl | hl
      · exact ⟨[], c :: r, rfl⟩
      · obtain ⟨a, b, hab⟩ := splitCh_mem_infix sep r l hl
        exact ⟨c :: a, b, by rw [hab]; rfl⟩
    · obtain ⟨l0, ls, h1, h2⟩ := splitCh_cons_ne sep c r hc
      rw [h2] at hl
      rcases List.mem_cons.1 hl with rfl | hl
      · obtain ⟨rest, hr⟩ := splitCh_head_prefix sep r
        rw [h1] at hr
        simp only [List.headD_cons] at hr
        refine ⟨[], rest, ?_⟩
        rw [List.nil_append, List.cons_append, ← hr]
      · obtain ⟨a, b, hab⟩ := splitCh_mem_infix sep r l (h1 ▸ List.mem_cons_of_mem l0 hl)
        exact ⟨c :: a, b, by rw [hab]; rfl⟩

theorem splitCh_no_sep (sep : Char) : ∀ l : Str, sep ∉ l → splitCh sep l = [l]
  | [], _ => by rw [splitCh]
  | c :: r, h => by
    have hc : c ≠ sep := fun hq => h (hq ▸ List.mem_cons_self c r)
    obtain ⟨l0, ls, h1, h2⟩ := splitCh_cons_ne sep c r hc
    have hr : splitCh sep r = [r] := splitCh_no_sep sep r (fun hm => h (List.mem_cons_of_mem c hm))
    rw [hr] at h1
    rcases h1 with ⟨rfl, rfl⟩
    exact h2

theorem splitCh_append_sep (sep : Char) : ∀ (a b : Str), (∀ c ∈ a, c ≠ sep) →
    splitCh sep (a ++ sep :: b) = a :: splitCh sep b
  | [], b, _ => by
    rw [List.nil_append, splitCh_cons_sep]
  | c :: a, b, h => by
    have hc : c ≠ sep := h c (List.mem_cons_self c a)
    obtain ⟨l0, ls, h1, h2⟩ := splitCh_cons_ne sep c (a ++ sep :: b) hc
    have hr : splitCh sep (a ++ sep :: b) = a :: splitCh sep b :=
      splitCh_append_sep sep a b (fun x hx => h x (List.mem_cons_of_mem c hx))
    rw [hr] at h1
    rcases h1 with ⟨rfl, rfl⟩
    rw [List.cons_append]
    exact h2

theorem joinCh_single (sep : Char) (l : Str) : joinCh sep [l] = l := by rw [joinCh]

theorem joinCh_cons2 (sep : Char) (l l2 : Str) (ls : List Str) :
    joinCh sep (l :: l2 :: ls) = l ++ sep :: joinCh sep (l2 :: ls) := by rw [joinCh]

theorem joinCh_cons_head (sep c : Char) (l : Str) (ls : List Str) :
    joinCh sep ((c :: l) :: ls) = c :: joinCh sep (l :: ls) := by
  cases ls with
  | nil => rw [joinCh_single, joinCh_single]
  | cons m ms => rw [joinCh_cons2, joinCh_cons2, List.cons_append]

theorem split_join (sep : Char) : ∀ M : List Str, M ≠ [] → (∀ l ∈ M, sep ∉ l) →
    splitCh sep (joinCh sep M) = M
  | [], h, _ => absurd rfl h
  | [l], _, hn => by
    rw [joinCh_single]
    exact splitCh_no_sep sep l (hn l (List.mem_singleton.2 rfl))
  | l :: l2 :: ls, _, hn => by
    rw [joinCh_cons2]
    rw [splitCh_append_sep sep l (joinCh sep (l2 :: ls))
      (fun c hc hq => hn l (List.mem_cons_self l _) (hq ▸ hc))]
    rw [split_join sep (l2 :: ls) (by simp)
      (fun m hm => hn m (List.mem_cons_of_mem l hm))]

theorem join_split (sep : Char) : ∀ s : Str, joinCh sep (splitCh sep s) = s
  | [] => by rw [splitCh, joinCh_single]
  | c :: r => by
    by_cases hc : c = sep
    · rw [hc, splitCh_cons_sep]
      rcases h : splitCh sep r with _ | ⟨l, ls⟩
      · exact absurd h (splitCh_ne_nil sep r)
      · rw [joinCh_cons2, List.nil_append, ← h, join_split sep r]
    · obtain ⟨l0, ls, h1, h2⟩ := splitCh_cons_ne sep c r hc
      rw [h2, joinCh_cons_head, ← h1, join_split sep r]

theorem splitCh_append_last (sep : Char) : ∀ a : Str,
    splitCh sep (a ++ [sep]) = splitCh sep a ++ [[]]
  | [] => by
    rw [List.nil_append, splitCh_cons_sep, splitCh]
    rfl
  | c :: a => by
    by_cases hc : c = sep
    · rw [hc, List.cons_append, splitCh_cons_sep, splitCh_cons_sep,
        splitCh_append_last sep a, List.cons_append]
    · obtain ⟨l0, ls, h1, h2⟩ := splitCh_cons_ne sep c (a ++ [sep]) hc
      obtain ⟨m0, ms, g1, g2⟩ := splitCh_cons_ne sep c a hc
      rw [splitCh_append_last sep a, g1, List.cons_append] at h1
      rcases h1 with ⟨rfl, rfl⟩
      rw [List.cons_append, h2, g2, List.cons_append]

theorem splitCh_append_replicate (sep : Char) : ∀ (k : Nat) (a : Str),
    splitCh sep (a ++ List.replicate k sep) = splitCh sep a ++ List.replicate k ([] : Str)
  | 0, a => by simp
  | k + 1, a => by
    rw [List.replicate_succ,
      show a ++ sep :: List.replicate k sep = (a ++ [sep]) ++ List.replicate k sep by simp,
      splitCh_append_replicate sep k (a ++ [sep]), splitCh_append_last sep a,
      List.replicate_succ]
    simp

/-! ## Trim idempotence and dash-run boundary lemmas -/
theorem dropWhile_idem (p : Char → Bool) (l : Str) :
    (l.dropWhile p).dropWhile p = l.dropWhile p := by
  rcases dropWhile_head_not p l with h | ⟨c, r, h, hp⟩
  · rw [h, List.dropWhile_nil]
  · rw [h, List.dropWhile_cons, if_neg (by simp [hp])]

theorem trimRightST_idem (l : Str) : trimRightST (trimRightST l) = trimRightST l := by
  rw [trimRightST, trimRightST, List.reverse_reverse, dropWhile_idem]

theorem trimRightNl_idem (l : Str) : trimRightNl (trimRightNl l) = trimRightNl l := by
  rw [trimRightNl, trimRightNl, List.reverse_reverse, dropWhile_idem]

theorem trimRightST_eq_self (l : Str)
    (h : ∀ ch, l.getLast? = some ch → (ch = ' ' || ch = '\t') = false) :
    trimRightST l = l := by
  rcases hr : l.reverse with _ | ⟨d, t⟩
  · have : l = [] := by simpa using congrArg List.reverse hr
    subst this
    rfl
  · have hd : l.getLast? = some d := by
      have := List.head?_reverse l
      rw [hr] at this
      simpa using this.symm
    rw [trimRightST, hr, List.dropWhile_cons, if_neg (by simp [h d hd])]
    rw [← hr, List.reverse_reverse]

theorem trimRightNl_append_nl (a : Str) : trimRightNl (a ++ ['\n']) = trimRightNl a := by
  rw [trimRightNl, trimRightNl, List.reverse_append]
  simp [List.dropWhile_cons]

theorem startsTriple_ne_head (q c : Char) (hc : c ≠ q) (s : Str) :
    startsTriple q (c :: s) = false := by
  match s with
  | [] => rfl
  | [b] => rfl
  | b :: d :: t => simp [startsTriple, hc]

theorem hasTriple_cons_of_ne (q c : Char) (hc : c ≠ q) (s : Str)
    (hs : hasTriple q s = false) : hasTriple q (c :: s) = false := by
  rw [hasTriple, startsTriple_ne_head q c hc s, hs]
  rfl

theorem hasTriple_suffix (q : Char) : ∀ a b : Str,
    hasTriple q (a ++ b) = false → hasTriple q b = false
  | [], _, h => h
  | c :: r, b, h => by
    rw [List.cons_append, hasTriple, Bool.or_eq_false_iff] at h
    exact hasTriple_suffix q r b h.2

theorem hasTriple_infix (q : Char) (a l b : Str)
    (h : hasTriple q (a ++ l ++ b) = false) : hasTriple q l = false := by
  rw [List.append_assoc] at h
  exact hasTriple_of_prefix q l b (hasTriple_suffix q a (l ++ b) h)

theorem hasTriple_append_mid (q c : Char) (hc : c ≠ q) : ∀ a b : Str,
    hasTriple q a = false → hasTriple q b = false → hasTriple q (a ++ c :: b) = false
  | [], b, _, hb => by
    rw [List.nil_append]
    exact hasTriple_cons_of_ne q c hc b hb
  | [d], b, _, hb => by
    rw [List.singleton_append, hasTriple, Bool.or_eq_false_iff]
    exact ⟨by cases b <;> simp [startsTriple, hc], hasTriple_cons_of_ne q c hc b hb⟩
  | d1 :: d2 :: a', b, ha, hb => by
    rw [hasTriple, Bool.or_eq_false_iff] at ha
    rw [List.cons_append, hasTriple, Bool.or_eq_false_iff]
    refine ⟨?_, hasTriple_append_mid q c hc (d2 :: a') b ha.2 hb⟩
    cases a' with
    | nil => simp [startsTriple, hc]
    | cons e a'' =>
      have h1 : startsTriple q (d1 :: (d2 :: e :: a'') ++ c :: b) =
          startsTriple q (d1 :: d2 :: e :: a'') := rfl
      exact h1.trans ha.1

/-! ## Hard-split chunks are infixes; the remainder is a nonempty suffix -/
theorem hardSplit_infix (m : Nat) : ∀ w : Str,
    (∀ ch ∈ (hardSplit m w).1, ∃ a b, w = a ++ ch ++ b) ∧
    ∃ a, w = a ++ (hardSplit m w).2
  | w => by
    rw [hardSplit_eq]
    split
    · next hc =>
      obtain ⟨ih1, ih2⟩ := hardSplit_infix m (w.drop m)
      constructor
      · intro ch hch
        have hch' : ch ∈ w.take m :: (hardSplit m (w.drop m)).1 := hch
        have hw : w = w.take m ++ w.drop m := (List.take_append_drop m w).symm
        rcases List.mem_cons.1 hch' with rfl | hch2
        · exact ⟨[], w.drop m, by rw [List.nil_append, List.take_append_drop]⟩
        · obtain ⟨a, b, hab⟩ := ih1 ch hch2
          refine ⟨w.take m ++ a, b, hw.trans ?_⟩
          rw [hab]
          simp [List.append_assoc]
      · obtain ⟨a, ha⟩ := ih2
        have hw : w = w.take m ++ w.drop m := (List.take_append_drop m w).symm
        refine ⟨w.take m ++ a, hw.trans ?_⟩
        conv_lhs => rw [ha]
        simp [List.append_assoc]
    · next hc =>
      refine ⟨fun ch hch => ?_, ⟨[], rfl⟩⟩
      have : ch ∈ ([] : List Str) := hch
      simp at this
termination_by w => w.length
decreasing_by simp only [List.length_drop]; omega

theorem hardSplit_rem_pos (m : Nat) (hm : 0 < m) : ∀ w : Str,
    0 < w.length → 0 < (hardSplit m w).2.length
  | w, hw => by
    rw [hardSplit_eq]
    split
    · next hc =>
      exact hardSplit_rem_pos m hm (w.drop m) (by simp only [List.length_drop]; omega)
    · exact hw
termination_by w => w.length
decreasing_by simp only [List.length_drop]; omega

/-! ## Helpers relating `isGoSpace`, last characters and trims -/
theorem space_tab_false (ch : Char) (h : isGoSpace ch = false) :
    (ch = ' ' || ch = '\t') = false := by
  simp only [isGoSpace, Bool.or_eq_false_iff] at h
  rw [Bool.or_eq_false_iff]
  exact ⟨h.1.1.1.1.1, h.1.1.1.1.2⟩

theorem mem_of_getLast_opt (l : Str) (ch : Char) (h : l.getLast? = some ch) : ch ∈ l := by
  rw [← List.head?_reverse] at h
  have hm : ch ∈ l.reverse := by
    rcases hr : l.reverse with _ | ⟨c, t⟩
    · rw [hr] at h
      simp at h
    · rw [hr] at h
      simp only [List.head?_cons, Option.some.injEq] at h
      subst h
      exact List.mem_cons_self c t
  simpa using hm

theorem getLast_opt_append_right (a b : Str) (hb : b ≠ []) :
    (a ++ b).getLast? = b.getLast? := by
  rw [← List.head?_reverse, ← List.head?_reverse, List.reverse_append]
  rcases hr : b.reverse with _ | ⟨c, t⟩
  · exact absurd (by simpa using congrArg List.reverse hr) hb
  · rfl

theorem trimRightST_decomp (s : Str) :
    s = trimRightST s ++ (s.reverse.takeWhile fun c => c = ' ' || c = '\t').reverse := by
  rw [trimRightST, ← List.reverse_append, List.takeWhile_append_dropWhile, List.reverse_reverse]

theorem trimRightST_free (s : Str) (h : hasTriple '-' s = false) :
    hasTriple '-' (trimRightST s) = false :=
  hasTriple_of_prefix '-' (trimRightST s) _ (trimRightST_decomp s ▸ h)

theorem trimRightST_mem (s : Str) (c : Char) (hc : c ∈ trimRightST s) : c ∈ s := by
  rw [trimRightST_decomp s]
  exact List.mem_append.2 (Or.inl hc)

/-! ## The `"> "` prefix preserves cleanliness -/
theorem pfx_free_append (pfx : Str) (hpfx : pfx = [] ∨ pfx = ['>', ' ']) (x : Str)
    (hx : hasTriple '-' x = false) : hasTriple '-' (pfx ++ x) = false := by
  rcases hpfx with rfl | rfl
  · exact hx
  · exact hasTriple_cons_of_ne '-' '>' (by decide) _
      (hasTriple_cons_of_ne '-' ' ' (by decide) x hx)

theorem pfx_nonl_append (pfx : Str) (hpfx : pfx = [] ∨ pfx = ['>', ' ']) (x : Str)
    (hx : ∀ c ∈ x, c ≠ '\n') : ∀ c ∈ pfx ++ x, c ≠ '\n' := by
  rcases hpfx with rfl | rfl
  · simpa using hx
  · intro c hc
    rcases List.mem_append.1 hc with h | h
    · rcases List.mem_cons.1 h with rfl | h
      · decide
      · rcases List.mem_cons.1 h with rfl | h
        · decide
        · simp at h
    · exact hx c h

theorem infix_mem (w ch a b : Str) (hab : w = a ++ ch ++ b) : ∀ c ∈ ch, c ∈ w := by
  intro c hc
  rw [hab]
  simp only [List.append_assoc, List.mem_append]
  exact Or.inr (Or.inl hc)

/-! ## The force-wrap word loop only appends to its accumulator -/
theorem fwGo_acc_prefix (pfx : Str) (m : Nat) : ∀ (ws : List Str) (cur : Str) (ll : Nat)
    (acc : List Str), ∃ t, fwGo pfx m ws cur ll acc = acc ++ t
  | [], cur, ll, acc => by
    rw [fwGo]
    split
    · exact ⟨[cur], rfl⟩
    · exact ⟨[], (List.append_nil acc).symm⟩
  | w :: ws, cur, ll, acc => by
    rw [fwGo]
    split
    · split
      · obtain ⟨t, ht⟩ := fwGo_acc_prefix pfx m ws (pfx ++ (hardSplit m w).2)
          (hardSplit m w).2.length
          ((if 0 < ll then acc ++ [cur] else acc) ++ (hardSplit m w).1.map (fun c => pfx ++ c))
        rw [ht]
        split
        · exact ⟨[cur] ++ (hardSplit m w).1.map (fun c => pfx ++ c) ++ t, by
            simp [List.append_assoc]⟩
        · exact ⟨(hardSplit m w).1.map (fun c => pfx ++ c) ++ t, by simp [List.append_assoc]⟩
      · obtain ⟨t, ht⟩ := fwGo_acc_prefix pfx m ws pfx 0
          ((if 0 < ll then acc ++ [cur] else acc) ++ (hardSplit m w).1.map (fun c => pfx ++ c))
        rw [ht]
        split
        · exact ⟨[cur] ++ (hardSplit m w).1.map (fun c => pfx ++ c) ++ t, by
            simp [List.append_assoc]⟩
        · exact ⟨(hardSplit m w).1.map (fun c => pfx ++ c) ++ t, by simp [List.append_assoc]⟩
    · split
      · obtain ⟨t, ht⟩ := fwGo_acc_prefix pfx m ws (pfx ++ w) w.length (acc ++ [cur])
        rw [ht]
        exact ⟨[cur] ++ t, by simp [List.append_assoc]⟩
      · exact fwGo_acc_prefix pfx m ws (cur ++ ' ' :: w) (ll + 1 + w.length) acc

/-! ## Cleanliness of force-wrapped lines: trim-invariant, dash-free, newline-free -/
theorem chunk_map_clean (pfx : Str) (m : Nat) (hpfx : pfx = [] ∨ pfx = ['>', ' '])
    (hm : 0 < m) (w : Str) (hw : goodWord w ∧ hasTriple '-' w = false) :
    ∀ x ∈ (hardSplit m w).1.map (fun c => pfx ++ c),
      trimRightST x = x ∧ hasTriple '-' x = false ∧ ∀ c ∈ x, c ≠ '\n' := by
  intro x hx
  obtain ⟨hchunklen, _⟩ := hardSplit_spec m hm w
  obtain ⟨hchunkinf, _⟩ := hardSplit_infix m w
  obtain ⟨c, hcmem, rfl⟩ := List.mem_map.1 hx
  obtain ⟨a, b, hab⟩ := hchunkinf c hcmem
  have hcw : ∀ d ∈ c, d ∈ w := infix_mem w c a b hab
  have hcfree : hasTriple '-' c = false := hasTriple_infix '-' a c b (hab ▸ hw.2)
  refine ⟨?_, pfx_free_append pfx hpfx c hcfree,
    pfx_nonl_append pfx hpfx c (fun d hd => goodWord_nonl w hw.1 d (hcw d hd))⟩
  have hcne : c ≠ [] := by
    have hlen := hchunklen c hcmem
    intro hce
    rw [hce] at hlen
    simp at hlen
    omega
  refine trimRightST_eq_self (pfx ++ c) (fun ch hch => ?_)
  rw [getLast_opt_append_right pfx c hcne] at hch
  exact space_tab_false ch (hw.1.2 ch (hcw ch (mem_of_getLast_opt c ch hch)))

theorem fwGo_clean (pfx : Str) (m : Nat) (hpfx : pfx = [] ∨ pfx = ['>', ' ']) (hm : 0 < m) :
    ∀ (ws : List Str) (cur : Str) (ll : Nat) (acc : List Str),
      (∀ w ∈ ws, goodWord w ∧ hasTriple '-' w = false) →
      0 < ll →
      cur.length = pfx.length + ll →
      hasTriple '-' cur = false →
      (∀ c ∈ cur, c ≠ '\n') →
      (∀ ch, cur.getLast? = some ch → isGoSpace ch = false) →
      (∀ l ∈ acc, trimRightST l = l ∧ hasTriple '-' l = false ∧ ∀ c ∈ l, c ≠ '\n') →
      ∀ l ∈ fwGo pfx m ws cur ll acc,
        trimRightST l = l ∧ hasTriple '-' l = false ∧ ∀ c ∈ l, c ≠ '\n'
  | [], cur, ll, acc, hws, hll, hcur, hfree, hnl, hlast, hacc, l, hl => by
    rw [fwGo] at hl
    split at hl
    · rcases List.mem_append.1 hl with h | h
      · exact hacc l h
      · simp only [List.mem_singleton] at h
        subst h
        exact ⟨trimRightST_eq_self l (fun ch hch => space_tab_false ch (hlast ch hch)),
          hfree, hnl⟩
    · exact hacc l hl
  | w :: ws, cur, ll, acc, hws, hll, hcur, hfree, hnl, hlast, hacc, l, hl => by
    rw [fwGo, if_pos hll] at hl
    have hw := hws w (List.mem_cons_self w ws)
    have hws' : ∀ v ∈ ws, goodWord v ∧ hasTriple '-' v = false :=
      fun v hv => hws v (List.mem_cons_of_mem w hv)
    have hwpos : 0 < w.length := List.length_pos.2 hw.1.1
    have hrempos : 0 < (hardSplit m w).2.length := hardSplit_rem_pos m hm w hwpos
    by_cases hlong : m < w.length
    · rw [if_pos hlong, if_pos hrempos] at hl
      obtain ⟨_, hreminf⟩ := hardSplit_infix m w
      have hacc2 : ∀ x ∈ acc ++ [cur] ++ (hardSplit m w).1.map (fun c => pfx ++ c),
          trimRightST x = x ∧ hasTriple '-' x = false ∧ ∀ c ∈ x, c ≠ '\n' := by
        intro x hx
        rcases List.mem_append.1 hx with hx | hx
        · rcases List.mem_append.1 hx with hx | hx
          · exact hacc x hx
          · simp only [List.mem_singleton] at hx
            subst hx
            exact ⟨trimRightST_eq_self x (fun ch hch => space_tab_false ch (hlast ch hch)),
              hfree, hnl⟩
        · exact chunk_map_clean pfx m hpfx hm w hw x hx
      obtain ⟨a, ha⟩ := hreminf
      have hrw : ∀ d ∈ (hardSplit m w).2, d ∈ w := fun d hd => by
        rw [ha]
        exact List.mem_append.2 (Or.inr hd)
      have hrne : (hardSplit m w).2 ≠ [] := by
        intro h0
        rw [h0] at hrempos
        simp at hrempos
      refine fwGo_clean pfx m hpfx hm ws _ _ _ hws' hrempos (by simp)
        (pfx_free_append pfx hpfx _ (hasTriple_suffix '-' a _ (ha ▸ hw.2)))
        (pfx_nonl_append pfx hpfx _ (fun d hd => goodWord_nonl w hw.1 d (hrw d hd)))
        ?_ hacc2 l hl
      intro ch hch
      rw [getLast_opt_append_right pfx _ hrne] at hch
      exact hw.1.2 ch (hrw ch (mem_of_getLast_opt _ ch hch))
    · rw [if_neg hlong] at hl
      by_cases hover : m < ll + 1 + w.length
      · rw [if_pos hover] at hl
        refine fwGo_clean pfx m hpfx hm ws _ _ _ hws' (List.length_pos.2 hw.1.1) (by simp)
          (pfx_free_append pfx hpfx w hw.2)
          (pfx_nonl_append pfx hpfx w (goodWord_nonl w hw.1)) ?_ ?_ l hl
        · intro ch hch
          rw [getLast_opt_append_right pfx w hw.1.1] at hch
          exact hw.1.2 ch (mem_of_getLast_opt w ch hch)
        · intro x hx
          rcases List.mem_append.1 hx with hx | hx
          · exact hacc x hx
          · simp only [List.mem_singleton] at hx
            subst hx
            exact ⟨trimRightST_eq_self x (fun ch hch => space_tab_false ch (hlast ch hch)),
              hfree, hnl⟩
      · rw [if_neg hover] at hl
        refine fwGo_clean pfx m hpfx hm ws _ _ _ hws' (by omega) ?_ ?_ ?_ ?_ hacc l hl
        · simp only [List.length_append, List.length_cons, hcur]
          omega
        · exact hasTriple_append_mid '-' ' ' (by decide) cur w hfree hw.2
        · intro c hc
          rcases List.mem_append.1 hc with h | h
          · exact hnl c h
          · rcases List.mem_cons.1 h with rfl | h
            · decide
            · exact goodWord_nonl w hw.1 c h
        · intro ch hch
          rw [getLast_opt_append_right cur (' ' :: w) (by simp)] at hch
          rw [show ' ' :: w = [' '] ++ w from rfl,
            getLast_opt_append_right [' '] w hw.1.1] at hch
          exact hw.1.2 ch (mem_of_getLast_opt w ch hch)

theorem fwStart_clean (pfx : Str) (m : Nat) (hpfx : pfx = [] ∨ pfx = ['>', ' '])
    (hm : 0 < m) (ws : List Str)
    (hws : ∀ w ∈ ws, goodWord w ∧ hasTriple '-' w = false) :
    ∀ l ∈ fwStart pfx m ws,
      trimRightST l = l ∧ hasTriple '-' l = false ∧ ∀ c ∈ l, c ≠ '\n' := by
  rcases ws with _ | ⟨w, ws⟩
  · intro l hl
    rw [fwStart] at hl
    simp at hl
  · intro l hl
    rw [fwStart] at hl
    have hw := hws w (List.mem_cons_self w ws)
    have hws' : ∀ v ∈ ws, goodWord v ∧ hasTriple '-' v = false :=
      fun v hv => hws v (List.mem_cons_of_mem w hv)
    have hwpos : 0 < w.length := List.length_pos.2 hw.1.1
    have hrempos := hardSplit_rem_pos m hm w hwpos
    obtain ⟨_, hreminf⟩ := hardSplit_infix m w
    by_cases hlong : m < w.length
    · rw [if_pos hlong, if_pos hrempos] at hl
      obtain ⟨a, ha⟩ := hreminf
      have hrw : ∀ d ∈ (hardSplit m w).2, d ∈ w := fun d hd => by
        rw [ha]
        exact List.mem_append.2 (Or.inr hd)
      have hrne : (hardSplit m w).2 ≠ [] := by
        intro h0
        rw [h0] at hrempos
        simp at hrempos
      refine fwGo_clean pfx m hpfx hm ws _ _ _ hws' hrempos (by simp)
        (pfx_free_append pfx hpfx _ (hasTriple_suffix '-' a _ (ha ▸ hw.2)))
        (pfx_nonl_append pfx hpfx _ (fun d hd => goodWord_nonl w hw.1 d (hrw d hd)))
        ?_ (chunk_map_clean pfx m hpfx hm w hw) l hl
      intro ch hch
      rw [getLast_opt_append_right pfx _ hrne] at hch
      exact hw.1.2 ch (hrw ch (mem_of_getLast_opt _ ch hch))
    · rw [if_neg hlong] at hl
      refine fwGo_clean pfx m hpfx hm ws _ _ _ hws' hwpos (by simp)
        (pfx_free_append pfx hpfx w hw.2)
        (pfx_nonl_append pfx hpfx w (goodWord_nonl w hw.1)) ?_ (by intro x hx; simp at hx)
        l hl
      intro ch hch
      rw [getLast_opt_append_right pfx w hw.1.1] at hch
      exact hw.1.2 ch (mem_of_getLast_opt w ch hch)

theorem fwGo_ne_nil (pfx : Str) (m : Nat) : ∀ (ws : List Str) (cur : Str) (ll : Nat)
    (acc : List Str), 0 < ll → cur.length = pfx.length + ll →
    fwGo pfx m ws cur ll acc ≠ []
  | [], cur, ll, acc, hll, hcur => by
    rw [fwGo, if_pos (by omega)]
    simp
  | w :: ws, cur, ll, acc, hll, hcur => by
    rw [fwGo, if_pos hll]
    split
    · split
      · obtain ⟨t, ht⟩ := fwGo_acc_prefix pfx m ws (pfx ++ (hardSplit m w).2)
          (hardSplit m w).2.length
          (acc ++ [cur] ++ (hardSplit m w).1.map (fun c => pfx ++ c))
        rw [ht]
        simp
      · obtain ⟨t, ht⟩ := fwGo_acc_prefix pfx m ws pfx 0
          (acc ++ [cur] ++ (hardSplit m w).1.map (fun c => pfx ++ c))
        rw [ht]
        simp
    · split
      · obtain ⟨t, ht⟩ := fwGo_acc_prefix pfx m ws (pfx ++ w) w.length (acc ++ [cur])
        rw [ht]
        simp
      · exact fwGo_ne_nil pfx m ws (cur ++ ' ' :: w) (ll + 1 + w.length) acc (by omega)
          (by simp only [List.length_append, List.length_cons, hcur]; omega)

theorem fwStart_ne_nil (pfx : Str) (m : Nat) (hm : 0 < m) (ws : List Str)
    (hws : ∀ w ∈ ws, goodWord w) (hne : ws ≠ []) : fwStart pfx m ws ≠ [] := by
  rcases ws with _ | ⟨w, ws⟩
  · exact absurd rfl hne
  · rw [fwStart]
    have hw := hws w (List.mem_cons_self w ws)
    have hwpos : 0 < w.length := List.length_pos.2 hw.1
    have hrempos := hardSplit_rem_pos m hm w hwpos
    by_cases hlong : m < w.length
    · rw [if_pos hlong, if_pos hrempos]
      exact fwGo_ne_nil pfx m ws _ _ _ hrempos (by simp)
    · rw [if_neg hlong]
      exact fwGo_ne_nil pfx m ws _ _ _ hwpos (by simp)

theorem fields_mem_infix : ∀ s : Str, ∀ w ∈ fields s, ∃ a b, s = a ++ w ++ b
  | [], w, hw => by
    rw [fields_nil] at hw
    simp at hw
  | c :: r, w, hw => by
    by_cases hc : isGoSpace c = true
    · rw [fields_cons_space c r hc] at hw
      obtain ⟨a, b, hab⟩ := fields_mem_infix r w hw
      exact ⟨c :: a, b, by rw [hab]; rfl⟩
    · rw [fields_cons_nonspace c r (by simpa using hc)] at hw
      rcases List.mem_cons.1 hw with rfl | hw
      · refine ⟨[], r.dropWhile (fun d => !isGoSpace d), ?_⟩
        rw [List.nil_append]
        have := (List.takeWhile_append_dropWhile (p := fun d => !isGoSpace d) (l := r)).symm
        rw [List.cons_append]
        exact congrArg (c :: ·) this
      · obtain ⟨a, b, hab⟩ := fields_mem_infix (r.dropWhile fun d => !isGoSpace d) w hw
        refine ⟨c :: r.takeWhile (fun d => !isGoSpace d) ++ a, b, ?_⟩
        have hr : r = r.takeWhile (fun d => !isGoSpace d) ++ r.dropWhile (fun d => !isGoSpace d) :=
          (List.takeWhile_append_dropWhile (p := fun d => !isGoSpace d) (l := r)).symm
        calc c :: r = c :: (r.takeWhile (fun d => !isGoSpace d) ++
            r.dropWhile (fun d => !isGoSpace d)) := congrArg (c :: ·) hr
        _ = c :: (r.takeWhile (fun d => !isGoSpace d) ++ (a ++ w ++ b)) := by rw [← hab]
        _ = (c :: r.takeWhile (fun d => !isGoSpace d) ++ a) ++ w ++ b := by
            simp [List.append_assoc]
termination_by s => s.length
decreasing_by
  all_goals simp only [List.length_cons]
  · omega
  · have := dropWhile_length_le (fun d => !isGoSpace d) r
    omega

/-! ## forceWrapLine: fixpoints and clean output -/
theorem forceWrapLine_of_heading (t : Str) (n : Nat) (h : startsHash t = true) :
    forceWrapLine t n = [t] := by
  rw [forceWrapLine, if_pos h]

theorem all_space_of_fields_nil : ∀ s : Str, fields s = [] → ∀ c ∈ s, isGoSpace c = true
  | [], _, c, hc => absurd hc (List.not_mem_nil c)
  | c0 :: r, h, c, hc => by
    by_cases h0 : isGoSpace c0 = true
    · rcases List.mem_cons.1 hc with rfl | hc
      · exact h0
      · refine all_space_of_fields_nil r ?_ c hc
        rw [fields_cons_space c0 r h0] at h
        exact h
    · rw [fields_cons_nonspace c0 r (by simpa using h0)] at h
      exact absurd h (by simp)

theorem fields_nil_of_all_space : ∀ s : Str, (∀ c ∈ s, isGoSpace c = true) → fields s = []
  | [], _ => fields_nil
  | c0 :: r, h => by
    rw [fields_cons_space c0 r (h c0 (List.mem_cons_self c0 r))]
    exact fields_nil_of_all_space r (fun c hc => h c (List.mem_cons_of_mem c0 hc))

theorem forceWrapLine_of_fields_nil (t : Str) (n : Nat) (h : fields t = []) :
    forceWrapLine t n = [t] := by
  rw [forceWrapLine]
  by_cases hh : startsHash t = true
  · rw [if_pos hh]
  · rw [if_neg hh]
    by_cases hbq : bqMarked t = true
    · rw [if_pos hbq]
      have hf2 : fields (t.drop 2) = [] := fields_nil_of_all_space _
        (fun c hc => all_space_of_fields_nil t h c (List.mem_of_mem_drop hc))
      rw [if_pos hf2]
    · rw [if_neg hbq, if_pos h]

theorem forceWrapLine_ne_nil (t : Str) : forceWrapLine t maxLineLength ≠ [] := by
  rw [forceWrapLine]
  by_cases hh : startsHash t = true
  · rw [if_pos hh]
    simp
  · rw [if_neg hh]
    by_cases hbq : bqMarked t = true
    · rw [if_pos hbq]
      by_cases hf : fields (t.drop 2) = []
      · rw [if_pos hf]
        simp
      · rw [if_neg hf]
        exact fwStart_ne_nil ['>', ' '] (maxLineLength - 2) (by decide) _
          (fields_goodWord _) hf
    · rw [if_neg hbq]
      by_cases hf : fields t = []
      · rw [if_pos hf]
        simp
      · rw [if_neg hf]
        exact fwStart_ne_nil [] maxLineLength (by decide) _ (fields_goodWord _) hf

theorem forceWrapLine_clean (t : Str)
    (ht : trimRightST t = t) (hfree : hasTriple '-' t = false)
    (hnl : ∀ c ∈ t, c ≠ '\n') :
    ∀ l ∈ forceWrapLine t maxLineLength,
      trimRightST l = l ∧ hasTriple '-' l = false ∧ (∀ c ∈ l, c ≠ '\n') ∧
      (l.length ≤ maxLineLength ∨ forceWrapLine l maxLineLength = [l]) := by
  intro l hl
  rw [forceWrapLine] at hl
  by_cases hh : startsHash t = true
  · rw [if_pos hh] at hl
    simp only [List.mem_singleton] at hl
    subst hl
    exact ⟨ht, hfree, hnl, Or.inr (forceWrapLine_of_heading l maxLineLength hh)⟩
  · rw [if_neg hh] at hl
    by_cases hbq : bqMarked t = true
    · rw [if_pos hbq] at hl
      by_cases hf : fields (t.drop 2) = []
      · rw [if_pos hf] at hl
        simp only [List.mem_singleton] at hl
        subst hl
        exact ⟨ht, hfree, hnl,
          Or.inr (by rw [forceWrapLine, if_neg hh, if_pos hbq, if_pos hf])⟩
      · rw [if_neg hf] at hl
        have hfree2 : hasTriple '-' (t.drop 2) = false :=
          hasTriple_suffix '-' (t.take 2) (t.drop 2)
            (by rw [List.take_append_drop]; exact hfree)
        have hws : ∀ w ∈ fields (t.drop 2), goodWord w ∧ hasTriple '-' w = false := by
          intro w hw
          obtain ⟨a, b, hab⟩ := fields_mem_infix (t.drop 2) w hw
          exact ⟨fields_goodWord _ w hw, hasTriple_infix '-' a w b (hab ▸ hfree2)⟩
        have hclean := fwStart_clean ['>', ' '] (maxLineLength - 2) (Or.inr rfl) (by decide)
          (fields (t.drop 2)) hws l hl
        have hbound := fwStart_bound ['>', ' '] (maxLineLength - 2) (by decide)
          (fields (t.drop 2)) l hl
        refine ⟨hclean.1, hclean.2.1, hclean.2.2, Or.inl ?_⟩
        have hM : 2 ≤ maxLineLength := by decide
        simp only [List.length_cons, List.length_nil] at hbound
        omega
    · rw [if_neg hbq] at hl
      by_cases hf : fields t = []
      · rw [if_pos hf] at hl
        simp only [List.mem_singleton] at hl
        subst hl
        exact ⟨ht, hfree, hnl,
          Or.inr (by rw [forceWrapLine, if_neg hh, if_neg hbq, if_pos hf])⟩
      · rw [if_neg hf] at hl
        have hws : ∀ w ∈ fields t, goodWord w ∧ hasTriple '-' w = false := by
          intro w hw
          obtain ⟨a, b, hab⟩ := fields_mem_infix t w hw
          exact ⟨fields_goodWord t w hw, hasTriple_infix '-' a w b (hab ▸ hfree)⟩
        have hclean := fwStart_clean [] maxLineLength (Or.inl rfl) (by decide)
          (fields t) hws l hl
        have hbound := fwStart_bound [] maxLineLength (by decide) (fields t) l hl
        refine ⟨hclean.1, hclean.2.1, hclean.2.2, Or.inl ?_⟩
        simpa using hbound

/-! ## The per-line pass: equations, clean output, identity on clean input -/
theorem fciLines_nil (b : Bool) : fciLines [] b = [] := rfl

theorem fciLines_cons (l : Str) (ls : List Str) (b : Bool) :
    fciLines (l :: ls) b =
      if trimRightST l = ['-', '-', '-'] then trimRightST l :: fciLines ls (!b)
      else if b || (trimRightST l).length ≤ maxLineLength then trimRightST l :: fciLines ls b
      else forceWrapLine (trimRightST l) maxLineLength ++ fciLines ls b := rfl

theorem fciLines_clean : ∀ L : List Str,
    (∀ l0 ∈ L, hasTriple '-' l0 = false ∧ ∀ c ∈ l0, c ≠ '\n') →
    ∀ l ∈ fciLines L false,
      trimRightST l = l ∧ hasTriple '-' l = false ∧ (∀ c ∈ l, c ≠ '\n') ∧
      (l.length ≤ maxLineLength ∨ forceWrapLine l maxLineLength = [l])
  | [], _, l, hl => by
    rw [fciLines_nil] at hl
    simp at hl
  | l0 :: ls, hL, l, hl => by
    obtain ⟨h0free, h0nl⟩ := hL l0 (List.mem_cons_self l0 ls)
    have hL' : ∀ x ∈ ls, hasTriple '-' x = false ∧ ∀ c ∈ x, c ≠ '\n' :=
      fun x hx => hL x (List.mem_cons_of_mem l0 hx)
    have htfree : hasTriple '-' (trimRightST l0) = false := trimRightST_free l0 h0free
    have htnl : ∀ c ∈ trimRightST l0, c ≠ '\n' := fun c hc => h0nl c (trimRightST_mem l0 c hc)
    have htid : trimRightST (trimRightST l0) = trimRightST l0 := trimRightST_idem l0
    rw [fciLines_cons] at hl
    by_cases hdash : trimRightST l0 = ['-', '-', '-']
    · exact absurd htfree (by rw [hdash]; decide)
    · rw [if_neg hdash] at hl
      by_cases hshort : (trimRightST l0).length ≤ maxLineLength
      · rw [if_pos (by simp [hshort])] at hl
        rcases List.mem_cons.1 hl with rfl | hl
        · exact ⟨htid, htfree, htnl, Or.inl hshort⟩
        · exact fciLines_clean ls hL' l hl
      · rw [if_neg (by simp [hshort])] at hl
        rcases List.mem_append.1 hl with hl | hl
        · exact forceWrapLine_clean (trimRightST l0) htid htfree htnl l hl
        · exact fciLines_clean ls hL' l hl

theorem fciLines_id : ∀ M : List Str,
    (∀ l ∈ M, trimRightST l = l ∧ hasTriple '-' l = false ∧
      (l.length ≤ maxLineLength ∨ forceWrapLine l maxLineLength = [l])) →
    fciLines M false = M
  | [], _ => rfl
  | l :: ls, h => by
    obtain ⟨htrim, hfree, hgood⟩ := h l (List.mem_cons_self l ls)
    have hrec := fciLines_id ls (fun x hx => h x (List.mem_cons_of_mem l hx))
    rw [fciLines_cons, htrim]
    have hdash : ¬(l = ['-', '-', '-']) := fun hd => absurd hfree (by rw [hd]; decide)
    rw [if_neg hdash]
    rcases hgood with hshort | hwrap
    · rw [if_pos (by simp [hshort]), hrec]
    · by_cases hshort : l.length ≤ maxLineLength
      · rw [if_pos (by simp [hshort]), hrec]
      · rw [if_neg (by simp [hshort]), hwrap, hrec, List.singleton_append]

theorem fciLines_ne_nil : ∀ (L : List Str) (b : Bool), L ≠ [] → fciLines L b ≠ []
  | [], _, h => absurd rfl h
  | l :: ls, b, _ => by
    rw [fciLines_cons]
    by_cases hdash : trimRightST l = ['-', '-', '-']
    · rw [if_pos hdash]
      simp
    · rw [if_neg hdash]
      by_cases hshort : (b || decide ((trimRightST l).length ≤ maxLineLength)) = true
      · rw [if_pos (by simpa using hshort)]
        simp
      · rw [if_neg (by simpa using hshort)]
        intro hc
        rcases List.append_eq_nil.mp hc with ⟨h1, _⟩
        exact forceWrapLine_ne_nil (trimRightST l) h1

/-! ## Lines through the blank-line collapse: contents are preserved or empty -/
theorem take2_eq (r : Str) (h : r.take 2 = ['\n', '\n']) : ∃ r2, r = '\n' :: '\n' :: r2 := by
  rcases r with _ | ⟨a, r1⟩
  · simp at h
  · rcases r1 with _ | ⟨b, r2⟩
    · simp at h
    · simp only [List.take_succ_cons, List.take_zero, List.cons.injEq, and_true] at h
      exact ⟨r2, by rw [h.1, h.2]⟩

theorem lines_step (X Y : Str)
    (hhead : (splitCh '\n' X).headD [] = (splitCh '\n' Y).headD [])
    (htail : ∀ l ∈ (splitCh '\n' X).tail, l ∈ (splitCh '\n' Y).tail ∨ l = []) :
    ∀ l ∈ splitCh '\n' X, l ∈ splitCh '\n' Y ∨ l = [] := by
  intro l hl
  rcases hX : splitCh '\n' X with _ | ⟨h0, t0⟩
  · exact absurd hX (splitCh_ne_nil _ _)
  · rw [hX] at hl
    rcases hY : splitCh '\n' Y with _ | ⟨g0, t1⟩
    · exact absurd hY (splitCh_ne_nil _ _)
    · rw [hX, hY] at hhead htail
      simp only [List.headD_cons, List.tail_cons] at hhead htail
      rcases List.mem_cons.1 hl with rfl | hl2
      · rw [hhead]
        exact Or.inl (List.mem_cons_self _ _)
      · rcases htail l hl2 with hmem | rfl
        · exact Or.inl (List.mem_cons_of_mem _ hmem)
        · exact Or.inr rfl

theorem collapse3_lines : ∀ s : Str,
    (splitCh '\n' (collapse3 s)).headD [] = (splitCh '\n' s).headD [] ∧
    ∀ l ∈ (splitCh '\n' (collapse3 s)).tail, l ∈ (splitCh '\n' s).tail ∨ l = []
  | [] => by
    rw [collapse3_nil]
    refine ⟨rfl, fun l hl => ?_⟩
    rw [splitCh] at hl
    simp at hl
  | a :: r => by
    by_cases htrip : a = '\n' ∧ r.take 2 = ['\n', '\n']
    · obtain ⟨ha, h2⟩ := htrip
      obtain ⟨r2, hr2⟩ := take2_eq r h2
      subst ha
      subst hr2
      have ih := collapse3_lines r2
      have hstep := lines_step (collapse3 r2) r2 ih.1 ih.2
      rw [collapse3_cons, if_pos ⟨rfl, rfl⟩,
        show ('\n' :: '\n' :: r2 : Str).drop 2 = r2 from rfl]
      rw [splitCh_cons_sep, splitCh_cons_sep, splitCh_cons_sep, splitCh_cons_sep,
        splitCh_cons_sep]
      refine ⟨rfl, ?_⟩
      intro l hl
      simp only [List.tail_cons] at hl ⊢
      rcases List.mem_cons.1 hl with rfl | hl
      · exact Or.inr rfl
      · rcases hstep l hl with hmem | rfl
        · exact Or.inl (List.mem_cons_of_mem _ (List.mem_cons_of_mem _ hmem))
        · exact Or.inr rfl
    · rw [collapse3_cons_of_ne a r htrip]
      by_cases ha : a = '\n'
      · subst ha
        have ih := collapse3_lines r
        have hstep := lines_step (collapse3 r) r ih.1 ih.2
        rw [splitCh_cons_sep, splitCh_cons_sep]
        refine ⟨rfl, ?_⟩
        intro l hl
        simp only [List.tail_cons] at hl ⊢
        exact hstep l hl
      · obtain ⟨l0, ls0, hX, hX2⟩ := splitCh_cons_ne '\n' a (collapse3 r) ha
        obtain ⟨l1, ls1, hY, hY2⟩ := splitCh_cons_ne '\n' a r ha
        rw [hX2, hY2]
        obtain ⟨hhead, htail⟩ := collapse3_lines r
        rw [hX, hY] at hhead htail
        simp only [List.headD_cons] at hhead
        simp only [List.tail_cons] at htail
        subst hhead
        refine ⟨rfl, ?_⟩
        intro l hl
        simp only [List.tail_cons] at hl ⊢
        exact htail l hl
termination_by s => s.length
decreasing_by
  all_goals simp only [List.length_cons]
  all_goals first
    | omega
    | (have hlen := congrArg List.length hr2
       simp only [List.length_cons] at hlen
       omega)

theorem collapse3_lines_mem (s : Str) :
    ∀ l ∈ splitCh '\n' (collapse3 s), l ∈ splitCh '\n' s ∨ l = [] :=
  lines_step (collapse3 s) s (collapse3_lines s).1 (collapse3_lines s).2

theorem collapseLoop_lines_mem : ∀ s : Str,
    ∀ l ∈ splitCh '\n' (collapseLoop s), l ∈ splitCh '\n' s ∨ l = []
  | s => by
    rw [collapseLoop_eq]
    split
    · next h =>
      intro l hl
      rcases collapseLoop_lines_mem (collapse3 s) l hl with hmem | rfl
      · exact collapse3_lines_mem s l hmem
      · exact Or.inr rfl
    · exact fun l hl => Or.inl hl
termination_by s => s.length
decreasing_by exact collapse3_length_lt s (by assumption)

theorem trimRightNl_lines (w : Str) :
    ∀ l ∈ splitCh '\n' (trimRightNl w), l ∈ splitCh '\n' w := by
  have hdecomp := trimRightNl_decomp w
  have hrest : ∀ c ∈ (w.reverse.takeWhile fun c => c = '\n').reverse, c = '\n' := by
    intro c hc
    rw [List.mem_reverse] at hc
    simpa using List.mem_takeWhile_imp hc
  have hrepl : (w.reverse.takeWhile fun c => c = '\n').reverse =
      List.replicate (w.reverse.takeWhile fun c => c = '\n').reverse.length '\n' :=
    List.eq_replicate_of_mem hrest
  intro l hl
  have key : splitCh '\n' w = splitCh '\n' (trimRightNl w) ++
      List.replicate (w.reverse.takeWhile fun c => c = '\n').reverse.length ([] : Str) := by
    have h2 := splitCh_append_replicate '\n'
      ((w.reverse.takeWhile fun c => c = '\n').reverse.length) (trimRightNl w)
    rw [← h2, ← hrepl, ← hdecomp]
  rw [key]
  exact List.mem_append.2 (Or.inl hl)

/-! ## Claim C5 -/

set_option maxRecDepth 10000 in
/-- **C5, counterexample**: `FixCommonIssues` is not idempotent: wrapping the
over-long first line of `c5Doc` emits the interior word `---` as an output
line of its own, and on the second pass that new `---` line toggles the
frontmatter flag, so the second pass treats the over-long `ccc… ddd…` line as
frontmatter and leaves it unwrapped where the first pass had wrapped it. -/
theorem c5_fixup_not_idempotent :
    fixCommonIssues (fixCommonIssues c5Doc) ≠ fixCommonIssues c5Doc := by decide

/-- **C5, amended**: on documents free of `---` (three consecutive dashes),
`FixCommonIssues` is idempotent: a second pass trims nothing (pass-one lines
are already right-trimmed), wraps nothing (pass-one output lines are at most
80 characters long or are fixpoints of `forceWrapLine`), never toggles the
frontmatter flag (no line can equal `---`), finds no `\n\n\n` (pass one
reached the collapse fixpoint) and no trailing newline run beyond the one
pass one appended. -/
theorem c5_fixup_idempotent_of_dash_free (x : Str)
    (hx : hasTriple '-' x = false) :
    fixCommonIssues (fixCommonIssues x) = fixCommonIssues x := by
  have hfix : fixCommonIssues x =
      trimRightNl (collapseLoop (joinCh '\n' (fciLines (splitCh '\n' x) false))) ++
        ['\n'] := rfl
  have hLfacts : ∀ l0 ∈ splitCh '\n' x,
      hasTriple '-' l0 = false ∧ ∀ c ∈ l0, c ≠ '\n' := by
    intro l0 hl0
    constructor
    · obtain ⟨a, b, hab⟩ := splitCh_mem_infix '\n' x l0 hl0
      exact hasTriple_infix '-' a l0 b (hab ▸ hx)
    · intro c hc hceq
      exact splitCh_mem_no_sep '\n' x l0 hl0 (hceq ▸ hc)
  have hM := fciLines_clean (splitCh '\n' x) hLfacts
  have hMne : fciLines (splitCh '\n' x) false ≠ [] :=
    fciLines_ne_nil (splitCh '\n' x) false (splitCh_ne_nil '\n' x)
  have hMnl : ∀ l ∈ fciLines (splitCh '\n' x) false, '\n' ∉ l :=
    fun l hl hmem => (hM l hl).2.2.1 '\n' hmem rfl
  have hlinesC : splitCh '\n' (joinCh '\n' (fciLines (splitCh '\n' x) false)) =
      fciLines (splitCh '\n' x) false :=
    split_join '\n' (fciLines (splitCh '\n' x) false) hMne hMnl
  have hYlines : ∀ l ∈ splitCh '\n' (fixCommonIssues x),
      l ∈ fciLines (splitCh '\n' x) false ∨ l = [] := by
    intro l hl
    rw [hfix, splitCh_append_last] at hl
    rcases List.mem_append.1 hl with hl | hl
    · have h1 := trimRightNl_lines
        (collapseLoop (joinCh '\n' (fciLines (splitCh '\n' x) false))) l hl
      have h2 := collapseLoop_lines_mem
        (joinCh '\n' (fciLines (splitCh '\n' x) false)) l h1
      rcases h2 with h2 | rfl
      · rw [hlinesC] at h2
        exact Or.inl h2
      · exact Or.inr rfl
    · simp only [List.mem_singleton] at hl
      exact Or.inr hl
  have hYgood : ∀ l ∈ splitCh '\n' (fixCommonIssues x),
      trimRightST l = l ∧ hasTriple '-' l = false ∧
      (l.length ≤ maxLineLength ∨ forceWrapLine l maxLineLength = [l]) := by
    intro l hl
    rcases hYlines l hl with hm | rfl
    · exact ⟨(hM l hm).1, (hM l hm).2.1, (hM l hm).2.2.2⟩
    · exact ⟨rfl, hasTriple_nil '-', Or.inl (by decide)⟩
  have hid : fciLines (splitCh '\n' (fixCommonIssues x)) false =
      splitCh '\n' (fixCommonIssues x) := fciLines_id _ hYgood
  have hjs : joinCh '\n' (splitCh '\n' (fixCommonIssues x)) = fixCommonIssues x :=
    join_split '\n' _
  have hcl : collapseLoop (fixCommonIssues x) = fixCommonIssues x := by
    rw [collapseLoop_eq, if_neg (by rw [fixCommonIssues_no_triple x]; simp)]
  have htr : trimRightNl (fixCommonIssues x) ++ ['\n'] = fixCommonIssues x := by
    conv_lhs => rw [hfix]
    rw [trimRightNl_append_nl, trimRightNl_idem, ← hfix]
  have hfix2 : fixCommonIssues (fixCommonIssues x) =
      trimRightNl (collapseLoop (joinCh '\n'
        (fciLines (splitCh '\n' (fixCommonIssues x)) false))) ++ ['\n'] := rfl
  rw [hfix2, hid, hjs, hcl]
  exact htr

/-- Witness for **C5**: the amended idempotence applied to a concrete
dash-free document. -/
theorem c5_fixup_idempotent_witness :
    hasTriple '-' "hello world\n\nsecond line".data = false ∧
    fixCommonIssues (fixCommonIssues "hello world\n\nsecond line".data) =
      fixCommonIssues "hello world\n\nsecond line".data :=
  ⟨by decide, c5_fixup_idempotent_of_dash_free "hello world\n\nsecond line".data (by decide)⟩

end WhisperTranscribe
